import Mathlib

/-!
AI4Math filename helper: adder and remover.

A verification development for the two command-line programs of the repository,
`adder.cpp` (mints the next sequentially numbered dataset file of a creator) and
`remover.cpp` (deletes one dataset file and renumbers the files after it).

Strings are lists of characters, C++ `int` values are integers (the theorems say
where they stay inside the 32-bit range), an uncaught C++ exception is the
result `none`, and the creator folder is a list of `(file name, content)`
entries in directory-enumeration order.
-/

namespace AI4Math

/-! ## Strings -/

/-- A `std::string`. -/
abbrev Str := List Char

/-- Membership in the character set `" \t\r\n"` that `trim` strips. -/
def isTrimChar (c : Char) : Bool :=
  c == ' ' || c == '\t' || c == '\r' || c == '\n'

/-- The helper `trim`: drops leading and trailing characters of `" \t\r\n"`. -/
def trim (s : Str) : Str :=
  ((s.dropWhile isTrimChar).reverse.dropWhile isTrimChar).reverse

/-- The decimal digit character of `d` (for `d < 10`). -/
def digitChar (d : Nat) : Char := Char.ofNat (48 + d)

/-- Decimal digits of `n`, most significant first, pushed in front of `acc`. -/
def toDigitsFuel : Nat → Nat → Str → Str
  | 0, _, acc => acc
  | fuel + 1, n, acc =>
    if n < 10 then digitChar n :: acc
    else toDigitsFuel fuel (n / 10) (digitChar (n % 10) :: acc)

/-- The text `operator<<` prints for a non-negative `int`. -/
def natRepr (n : Nat) : Str := toDigitsFuel (n + 1) n []

/-- The text `operator<<` prints for an `int`. -/
def intRepr : Int → Str
  | Int.ofNat n => natRepr n
  | Int.negSucc n => '-' :: natRepr (n + 1)

/-- The helper `pad_num`: `setw(width) << setfill('0') << v`. The field is
right-adjusted, so the fill goes in front, and a wider number is not cut. -/
def pad_num (v : Int) (width : Nat) : Str :=
  List.replicate (width - (intRepr v).length) '0' ++ intRepr v

/-- The white space `std::stoi` skips in front of the number (`isspace`). -/
def isSpace (c : Char) : Bool :=
  c == ' ' || c == '\t' || c == '\n' || c == '\x0b' || c == '\x0c' || c == '\r'

/-- The value of a string of decimal digits. -/
def digitsVal (ds : Str) : Nat :=
  ds.foldl (fun a c => 10 * a + (c.toNat - 48)) 0

/-- Smallest value of a 32-bit `int`. -/
def INT_MIN : Int := -2147483648

/-- Largest value of a 32-bit `int`. -/
def INT_MAX : Int := 2147483647

/-- The optional sign in front of the digits: whether it is `-`, and the text
after it. -/
def stoi_sign : Str → Bool × Str
  | '-' :: r => (true, r)
  | '+' :: r => (false, r)
  | s => (false, s)

/-- The number read from the digits `ds` under the sign: `none` when there is
no digit (`std::invalid_argument`) or the value does not fit an `int`
(`std::out_of_range`). -/
def stoi_value (neg : Bool) (ds : Str) : Option Int :=
  if ds.isEmpty then none
  else
    let v : Int := if neg then -(digitsVal ds : Int) else (digitsVal ds : Int)
    if INT_MIN ≤ v ∧ v ≤ INT_MAX then some v else none

/-- The library function `std::stoi` in base 10: skips white space, reads an
optional sign and the longest run of digits, ignores what follows. The result
is `none` where `std::stoi` throws. -/
def stoi (s : Str) : Option Int :=
  let p := stoi_sign (s.dropWhile isSpace)
  stoi_value p.1 (p.2.takeWhile Char.isDigit)

/-- The member `std::string::find(char)`: position of the first occurrence. -/
def find_char (c : Char) (s : Str) : Option Nat :=
  if s.indexOf c < s.length then some (s.indexOf c) else none

/-- Lexicographic `operator<` of two strings, by character code. -/
def strLt : Str → Str → Bool
  | _, [] => false
  | [], _ :: _ => true
  | x :: xs, y :: ys =>
    if x.toNat < y.toNat then true
    else if y.toNat < x.toNat then false
    else strLt xs ys

/-- Lines read by successive `std::getline` calls until the stream fails;
`cur` holds the characters of the current line, last one first. -/
def getlinesAux : Str → Str → List Str
  | cur, [] => if cur.isEmpty then [] else [cur.reverse]
  | cur, c :: cs =>
    if c == '\n' then cur.reverse :: getlinesAux [] cs
    else getlinesAux (c :: cur) cs

/-- All lines of a file, as the `while (std::getline(in, line))` loop sees them. -/
def getlines (txt : Str) : List Str := getlinesAux [] txt

/-! ## The counter map and the counter file -/

/-- The counter map `std::map<std::string,int>`, newest binding first. -/
abbrev Cache := List (Str × Int)

/-- The key of the worked-solution series. -/
def keyWS : Str := "WS".toList

/-- The key of the numeric-solution series. -/
def keyNS : Str := "NS".toList

/-- The member `at`: the value of a key, `none` where `at` throws. -/
def Cache.at (m : Cache) (k : Str) : Option Int := m.lookup k

/-- Reading `m[k]`: a missing key is created with value `0`. -/
def Cache.get (m : Cache) (k : Str) : Int := (m.lookup k).getD 0

/-- The assignment `m[k] = v`. -/
def Cache.set (m : Cache) (k : Str) (v : Int) : Cache :=
  (k, v) :: m.filter (fun e => e.1 != k)

/-- The map after `m["WS"]=0; m["NS"]=0;`. -/
def init_cache : Cache := Cache.set (Cache.set [] keyWS 0) keyNS 0

/-- One round of the loop of `load_cache`: a line without `=` is skipped, any
other line assigns `stoi` of what follows the first `=` to the key in front
of it. The result is `none` when `std::stoi` throws. -/
def load_line (m : Cache) (raw : Str) : Option Cache :=
  let line := trim raw
  match find_char '=' line with
  | none => some m
  | some pos =>
    match stoi (line.drop (pos + 1)) with
    | none => none
    | some v => some (m.set (line.take pos) v)

/-- The loop of `load_cache` over the lines of the file. -/
def load_lines : Cache → List Str → Option Cache
  | m, [] => some m
  | m, l :: ls =>
    match load_line m l with
    | none => none
    | some m1 => load_lines m1 ls

/-- The function `load_cache` on the content of the counter file (`none` for a
missing file). The result is `none` when the function throws. -/
def load_cache (file : Option Str) : Option Cache :=
  match file with
  | none => some init_cache
  | some txt => load_lines init_cache (getlines txt)

/-- The two lines `save_cache` and the signal handlers write for the values
`ws` and `ns`. -/
def cache_text (ws ns : Int) : Str :=
  "WS=".toList ++ intRepr ws ++ "\n".toList ++ "NS=".toList ++ intRepr ns ++ "\n".toList

/-- The function `save_cache`: the text written to the counter file, `none`
where `m.at` throws. -/
def save_cache (m : Cache) : Option Str :=
  match m.at keyWS, m.at keyNS with
  | some ws, some ns => some (cache_text ws ns)
  | _, _ => none

/-- Whether a value fits a 32-bit `int`. -/
def inIntRange (v : Int) : Prop := INT_MIN ≤ v ∧ v ≤ INT_MAX

/-- The counter map holds both series, with values that fit an `int`. -/
def CacheOK (m : Cache) : Prop :=
  ∃ ws ns, m.at keyWS = some ws ∧ m.at keyNS = some ns ∧ inIntRange ws ∧ inIntRange ns

/-! ## The creator folder -/

/-- The creator folder: its entries `(file name, content)` in the order in which
`fs::directory_iterator` enumerates them. -/
abbrev Dir := List (Str × Str)

/-- The file names of a folder. -/
def Dir.names (d : Dir) : List Str := d.map Prod.fst

/-- The name of the counter file inside the creator folder. -/
def cacheName : Str := ".cache".toList

/-- The library function `fs::exists`. -/
def fs_exists (d : Dir) (n : Str) : Bool := d.any (fun e => e.1 == n)

/-- The content of a file, `none` when it does not exist. -/
def fs_read (d : Dir) (n : Str) : Option Str := d.lookup n

/-- The library function `fs::remove`. -/
def fs_remove (d : Dir) (n : Str) : Dir := d.filter (fun e => e.1 != n)

/-- Writing a file through `std::ofstream` (truncating): an existing file gets
the new content, a new file becomes the last entry. -/
def fs_write (d : Dir) (n c : Str) : Dir :=
  if fs_exists d n then d.map (fun e => if e.1 == n then (n, c) else e)
  else d ++ [(n, c)]

/-- The library function `fs::rename`: `none` (it throws) when `a` does not
exist; an existing `b` is replaced. -/
def fs_rename (d : Dir) (a b : Str) : Option Dir :=
  if fs_exists d a then
    if a == b then some d
    else some ((fs_remove d b).map (fun e => if e.1 == a then (b, e.2) else e))
  else none

/-! ## The filename pattern of the remover -/

/-- The regular expressions the pattern needs. -/
inductive Re where
  | eps
  | chr (c : Char)
  | digit
  | range (lo hi : Char)
  | seq (a b : Re)
  | alt (a b : Re)
  | group (r : Re)

/-- A literal word. -/
def Re.word : Str → Re
  | [] => Re.eps
  | c :: cs => Re.seq (Re.chr c) (Re.word cs)

/-- The bounded repetition `r{n}`. -/
def Re.times : Nat → Re → Re
  | 0, _ => Re.eps
  | n + 1, r => Re.seq r (Re.times n r)

/-- Whether character `x` matches the literal `c`; under `icase` both are
lower-cased first. -/
def chrMatches (icase : Bool) (c x : Char) : Bool :=
  if icase then x.toLower == c.toLower else x == c

/-- Whether character `x` lies in the bracket range `[lo-hi]`; under `icase`
its lower-case and its upper-case form are both tried. -/
def rangeMatches (icase : Bool) (lo hi x : Char) : Bool :=
  if icase then
    (lo.toNat ≤ x.toLower.toNat && x.toLower.toNat ≤ hi.toNat) ||
    (lo.toNat ≤ x.toUpper.toNat && x.toUpper.toNat ≤ hi.toNat)
  else lo.toNat ≤ x.toNat && x.toNat ≤ hi.toNat

/-- Backtracking matcher: matches `r` at the front of `s` and hands the rest of
the input and the capture groups closed so far to the continuation `k`. -/
def Re.matchK (icase : Bool) : Re → Str → List Str → (Str → List Str → Option (List Str)) →
    Option (List Str)
  | Re.eps, s, caps, k => k s caps
  | Re.chr _, [], _, _ => none
  | Re.chr c, x :: xs, caps, k => if chrMatches icase c x then k xs caps else none
  | Re.digit, [], _, _ => none
  | Re.digit, x :: xs, caps, k => if x.isDigit then k xs caps else none
  | Re.range _ _, [], _, _ => none
  | Re.range lo hi, x :: xs, caps, k => if rangeMatches icase lo hi x then k xs caps else none
  | Re.seq a b, s, caps, k => Re.matchK icase a s caps (fun s1 caps1 => Re.matchK icase b s1 caps1 k)
  | Re.alt a b, s, caps, k =>
    (Re.matchK icase a s caps k).orElse (fun _ => Re.matchK icase b s caps k)
  | Re.group r, s, caps, k =>
    Re.matchK icase r s caps (fun s1 caps1 => k s1 (caps1 ++ [s.take (s.length - s1.length)]))

/-- The library function `std::regex_match`: the whole of `s` must match; the
result lists the capture groups `match[1]`, `match[2]`, ... -/
def regex_match (icase : Bool) (r : Re) (s : Str) : Option (List Str) :=
  Re.matchK icase r s [] (fun rest caps => if rest.isEmpty then some caps else none)

/-- The pattern `(WS|NS)(\d{6})_C\d{2}_L[1-5]_(MATH|LEAN)\.(tex|lean)` of the
remover. -/
def re : Re :=
  Re.seq (Re.group (Re.alt (Re.word "WS".toList) (Re.word "NS".toList)))
  (Re.seq (Re.group (Re.times 6 Re.digit))
  (Re.seq (Re.word "_C".toList)
  (Re.seq (Re.times 2 Re.digit)
  (Re.seq (Re.word "_L".toList)
  (Re.seq (Re.range '1' '5')
  (Re.seq (Re.chr '_')
  (Re.seq (Re.group (Re.alt (Re.word "MATH".toList) (Re.word "LEAN".toList)))
  (Re.seq (Re.chr '.')
  (Re.group (Re.alt (Re.word "tex".toList) (Re.word "lean".toList)))))))))))

/-- The remover's match of a file name: `std::regex_match(f, m, re)` with
`std::regex::icase`. -/
def match_name (f : Str) : Option (List Str) := regex_match true re f

/-- What the remover reads off a matched name: the series token `match[1]` and
the number `std::stoi(match[2].str().substr(2))`. -/
def decode (f : Str) : Option (Str × Int) :=
  match match_name f with
  | some (g1 :: g2 :: _) =>
    match stoi (g2.drop 2) with
    | some stt => some (g1, stt)
    | none => none
  | _ => none

/-! ## The filename grammar, field by field -/

/-- A string in lower case. -/
def lower (s : Str) : Str := s.map Char.toLower

/-- Whether `s` consists of exactly `n` decimal digits. -/
def isDigits (n : Nat) (s : Str) : Bool := s.length == n && s.all Char.isDigit

/-- The filename grammar
`^(WS|NS)\d{6}_C\d{2}_L[1-5]_(MATH|LEAN)\.(tex|lean)$`, letters in either case,
checked field by field at fixed positions: the series tag, six digits, `_C`
and two digits, `_L` and a digit from 1 to 5, `_` and the kind, a dot and the
extension. -/
def grammar (f : Str) : Bool :=
  (lower (f.take 2) == "ws".toList || lower (f.take 2) == "ns".toList) &&
  isDigits 6 ((f.drop 2).take 6) &&
  lower ((f.drop 8).take 2) == "_c".toList &&
  isDigits 2 ((f.drop 10).take 2) &&
  lower ((f.drop 12).take 2) == "_l".toList &&
  (match (f.drop 14).take 1 with
    | [c] => "12345".toList.contains c
    | _ => false) &&
  (f.drop 15).take 1 == "_".toList &&
  (lower ((f.drop 16).take 4) == "math".toList || lower ((f.drop 16).take 4) == "lean".toList) &&
  (f.drop 20).take 1 == ".".toList &&
  (lower (f.drop 21) == "tex".toList || lower (f.drop 21) == "lean".toList)

/-- The part of the grammar behind the eight leading characters. -/
def tailOK (t : Str) : Bool :=
  lower (t.take 2) == "_c".toList &&
  isDigits 2 ((t.drop 2).take 2) &&
  lower ((t.drop 4).take 2) == "_l".toList &&
  (match (t.drop 6).take 1 with
    | [c] => "12345".toList.contains c
    | _ => false) &&
  (t.drop 7).take 1 == "_".toList &&
  (lower ((t.drop 8).take 4) == "math".toList || lower ((t.drop 8).take 4) == "lean".toList) &&
  (t.drop 12).take 1 == ".".toList &&
  (lower (t.drop 13) == "tex".toList || lower (t.drop 13) == "lean".toList)

/-- The rule `MATH→.tex`, `LEAN→.lean` of the specification: whether the
extension of a name of the grammar belongs to its kind. -/
def kindMatchesExt (f : Str) : Bool :=
  (lower ((f.drop 16).take 4) == "math".toList && lower (f.drop 21) == "tex".toList) ||
  (lower ((f.drop 16).take 4) == "lean".toList && lower (f.drop 21) == "lean".toList)

/-- The sequence number of the file `f` if the remover reads it as a file of the
series with token `wsns`. -/
def seq_of (wsns : Str) (f : Str) : Option Int :=
  match decode f with
  | some (type, stt) => if type == wsns then some stt else none
  | none => none

/-- The sequence numbers of the files of the series with token `wsns`, as the
remover reads them, in directory order. -/
def seqs (wsns : Str) (d : Dir) : List Int := d.names.filterMap (seq_of wsns)

/-! ## The adder (`adder.cpp`) -/

namespace Adder

/-- The answer to the prompt `WS or NS`, once the loop accepts it. -/
inductive Series where
  | WS
  | NS
  deriving DecidableEq

/-- The answer to the prompt `Difficulty L1..L5`, once the loop accepts it. -/
inductive Difficulty where
  | L1
  | L2
  | L3
  | L4
  | L5
  deriving DecidableEq

/-- The answer to the prompt `MATH or LEAN`, once the loop accepts it. -/
inductive Kind where
  | MATH
  | LEAN
  deriving DecidableEq

/-- The variable `wsns`. -/
def Series.str : Series → Str
  | Series.WS => "WS".toList
  | Series.NS => "NS".toList

/-- The variable `difficulty`. -/
def Difficulty.str : Difficulty → Str
  | Difficulty.L1 => "L1".toList
  | Difficulty.L2 => "L2".toList
  | Difficulty.L3 => "L3".toList
  | Difficulty.L4 => "L4".toList
  | Difficulty.L5 => "L5".toList

/-- The variable `cls`. -/
def Kind.str : Kind → Str
  | Kind.MATH => "MATH".toList
  | Kind.LEAN => "LEAN".toList

/-- The variable `ext`: `(cls == "MATH") ? ".tex" : ".lean"`. -/
def Kind.ext : Kind → Str
  | Kind.MATH => ".tex".toList
  | Kind.LEAN => ".lean".toList

/-- What one run of the adder reads from the terminal, after its validation
loops: the creator number, the series, the chapter number, the difficulty, the
classification and the content of the new file. -/
structure Input where
  idnum : Int
  wsns : Series
  chapter : Int
  difficulty : Difficulty
  cls : Kind
  content : Str

/-- The lambda `make_name` with the variables it captures. -/
def make_name (wsns id_str chapter difficulty cls ext : Str) (stt : Int) : Str :=
  wsns ++ id_str ++ pad_num stt 4 ++ "_".toList ++ chapter ++ "_".toList ++ difficulty ++
    "_".toList ++ cls ++ ext

/-- The lambda `make_name` of a run: `id_str` is `pad_num(idnum, 2)` and
`chapter` is `"C" + pad_num(..., 2)`. -/
def Input.name (i : Input) (stt : Int) : Str :=
  make_name i.wsns.str (pad_num i.idnum 2) ("C".toList ++ pad_num i.chapter 2)
    i.difficulty.str i.cls.str i.cls.ext stt

/-- The part of an adder name behind the series, the creator and the number. -/
def Input.tail (i : Input) : Str :=
  "_".toList ++ ("C".toList ++ pad_num i.chapter 2) ++ "_".toList ++ i.difficulty.str ++
    "_".toList ++ i.cls.str ++ i.cls.ext

/-- The loop that looks for a free name: `stt` is raised while the candidate
exists. The loop has no bound in the source; here it gives up (`none`) after
`fuel` rounds. -/
def probe (d : Dir) (mk : Int → Str) : Nat → Int → Option Int
  | 0, _ => none
  | fuel + 1, stt => if fs_exists d (mk stt) then probe d mk fuel (stt + 1) else some stt

/-- The globals the signal handler reads, and the folder. -/
structure State where
  fs : Dir
  created_files : List Str
  cache_file : Option Str
  old_cache : Cache

/-- The handler `cleanup_on_signal` of the adder: removes every recorded file
that exists and rewrites the counter file from `old_cache`. -/
def cleanup_on_signal (st : State) : Dir :=
  let d1 := st.created_files.foldl (fun d f => if fs_exists d f then fs_remove d f else d) st.fs
  match st.cache_file with
  | some p =>
    if !st.old_cache.isEmpty then
      fs_write d1 p (cache_text (st.old_cache.get keyWS) (st.old_cache.get keyNS))
    else d1
  | none => d1

/-- The adder at a point of `main` after the name is chosen. -/
structure Run where
  st : State
  cache : Cache
  stt : Int
  filename : Str

/-- From the start of `main` to the chosen file name: the counter file is
loaded into `old_cache` and `cache`, `next_stt = cache[wsns] + 1`, and the
probe loop picks the name. The result is `none` when `load_cache` throws. -/
def start (i : Input) (d : Dir) : Option Run :=
  match load_cache (fs_read d cacheName) with
  | none => none
  | some old =>
    match probe d i.name (d.length + 1) (Cache.get old i.wsns.str + 1) with
    | none => none
    | some stt =>
      some { st := { fs := d, created_files := [], cache_file := some cacheName, old_cache := old },
             cache := old, stt := stt, filename := i.name stt }

/-- The temporary file is written. -/
def write_temp (i : Input) (r : Run) : Option Run :=
  some { r with st := { r.st with fs := fs_write r.st.fs (r.filename ++ ".tmp".toList) i.content } }

/-- The temporary file is renamed to the final name. -/
def rename_final (r : Run) : Option Run :=
  match fs_rename r.st.fs (r.filename ++ ".tmp".toList) r.filename with
  | none => none
  | some d => some { r with st := { r.st with fs := d } }

/-- The final path is recorded: `created_files.push_back(fullpath)`. -/
def record_created (r : Run) : Option Run :=
  some { r with st := { r.st with created_files := r.st.created_files ++ [r.filename] } }

/-- The counter is updated and saved: `cache[wsns] = stt; save_cache(...)`. -/
def update_cache (i : Input) (r : Run) : Option Run :=
  let cache := r.cache.set i.wsns.str r.stt
  match save_cache cache with
  | none => none
  | some txt => some { r with cache := cache, st := { r.st with fs := fs_write r.st.fs cacheName txt } }

/-- The record is dropped on success: `created_files.clear()`. -/
def clear_created (r : Run) : Option Run :=
  some { r with st := { r.st with created_files := [] } }

/-- The `n`-th step of `main` after the name is chosen. -/
def step (i : Input) (n : Nat) (r : Run) : Option Run :=
  match n with
  | 0 => write_temp i r
  | 1 => rename_final r
  | 2 => record_created r
  | 3 => update_cache i r
  | 4 => clear_created r
  | _ => some r

/-- The run of `main` up to and including its first `n` steps after the name
is chosen. -/
def run (i : Input) (d : Dir) : Nat → Option Run
  | 0 => start i d
  | n + 1 =>
    match run i d n with
    | none => none
    | some r => step i n r

/-- The adder's `main` (the calls of git apart): the folder it leaves. -/
def main (i : Input) (d : Dir) : Option Dir := (run i d 5).map (fun r => r.st.fs)

/-- The folder left when a signal arrives after `n` steps and the handler runs. -/
def interrupted (i : Input) (d : Dir) (n : Nat) : Option Dir :=
  (run i d n).map (fun r => cleanup_on_signal r.st)

/-- Successive runs of the adder, one for each input. -/
def mains : List Input → Dir → Option Dir
  | [], d => some d
  | i :: is, d =>
    match main i d with
    | none => none
    | some d1 => mains is d1

/-- The number of inputs that ask for the series `X`. -/
def count (X : Series) (reqs : List Input) : Nat := reqs.countP (fun i => decide (i.wsns = X))

/-- The state of a folder that the inputs `done` of one creator have filled from
nothing: the counter file (missing only before the first run) holds the number
of runs of each series, every file other than the counter file is the name of
one of the inputs at a sequence from 1 to the number of runs of its series,
and every such sequence has its file. -/
def Filled (d : Dir) (done : List Input) : Prop :=
  ((fs_read d cacheName = none ∧ done = []) ∨
    fs_read d cacheName = some (cache_text (count Series.WS done) (count Series.NS done))) ∧
  (∀ f ∈ d.names, f = cacheName ∨
    ∃ i ∈ done, ∃ s : Nat, 1 ≤ s ∧ s ≤ count i.wsns done ∧ f = i.name s) ∧
  (∀ X : Series, ∀ s : Nat, 1 ≤ s → s ≤ count X done →
    ∃ i ∈ done, i.wsns = X ∧ i.name s ∈ d.names)

end Adder

/-! ## The remover (`remover.cpp`) -/

namespace Remover

/-- The globals the signal handler reads, and the folder. -/
structure State where
  fs : Dir
  renamed_files : List (Str × Str)
  deleted_file : Option Str
  cache_file : Option Str
  old_cache : Cache

/-- The handler `cleanup_on_signal` of the remover: walks `renamed_files` from
the last pair to the first and renames `second` back to `first` where `second`
exists, then rewrites the counter file from `old_cache`. The deleted file is
only reported. -/
def cleanup_on_signal (st : State) : Dir :=
  let d1 := st.renamed_files.reverse.foldl
    (fun d p => if fs_exists d p.2 then (fs_rename d p.2 p.1).getD d else d) st.fs
  match st.cache_file with
  | some p =>
    if !st.old_cache.isEmpty then
      fs_write d1 p (cache_text (st.old_cache.get keyWS) (st.old_cache.get keyNS))
    else d1
  | none => d1

/-- The new name of the entry `f` with number `stt`:
`wsns + id_str + pad_num(stt-1,4) + f.substr(8)`. -/
def new_name (id_str wsns : Str) (stt : Int) (f : Str) : Str :=
  wsns ++ id_str ++ pad_num (stt - 1) 4 ++ f.drop 8

/-- The body of the loop that collects the renames, for the entry `f`: an entry
the pattern accepts, with the series token of the removed file and a larger
number, is paired with its new name. -/
def collect_entry (id_str wsns : Str) (stt_to_remove : Int) (f : Str) : Option (Str × Str) :=
  match decode f with
  | some (type, stt) =>
    if type == wsns && stt > stt_to_remove then some (f, new_name id_str wsns stt f)
    else none
  | none => none

/-- The loop over the folder that collects the renames. -/
def collect (d : Dir) (id_str wsns : Str) (stt_to_remove : Int) : List (Str × Str) :=
  d.names.filterMap (collect_entry id_str wsns stt_to_remove)

/-- The order `std::sort` is called with: by the old file name. -/
def nameLe (a b : Str × Str) : Prop := strLt b.1 a.1 = false

instance : DecidableRel nameLe := fun a b => inferInstanceAs (Decidable (strLt b.1 a.1 = false))

/-- The call of `std::sort` on the renames. -/
def sort_renames (l : List (Str × Str)) : List (Str × Str) := List.insertionSort nameLe l

/-- The first statement of the body of the renaming loop,
`fs::rename(p.first, p.second)`: `none` when it throws. Nothing is recorded
yet. -/
def rename_pair (p : Str × Str) (st : State) : Option State :=
  match fs_rename st.fs p.1 p.2 with
  | none => none
  | some d => some { st with fs := d }

/-- The second statement of the body of the renaming loop,
`renamed_files.push_back(p)`. -/
def record_renamed (p : Str × Str) (st : State) : State :=
  { st with renamed_files := st.renamed_files ++ [p] }

/-- The loop that applies the renames and records each one, statement by
statement. The result is `error` with the state reached when `fs::rename`
throws. -/
def apply_renames : List (Str × Str) → State → Except State State
  | [], st => Except.ok st
  | p :: ps, st =>
    match rename_pair p st with
    | none => Except.error st
    | some st1 => apply_renames ps (record_renamed p st1)

/-- The remover after the target is deleted and the renames are planned. -/
structure Job where
  st : State
  cache : Cache
  wsns : Str
  renames : List (Str × Str)

/-- How the first part of `main` ends. -/
inductive Begin where
  | threw
  | exit1
  | job (j : Job)

/-- From the start of `main` to the sorted renames: the counter file is loaded,
the file name is trimmed, a missing file or a name the pattern rejects ends the
program with `return 1`, otherwise the file is deleted and the renames are
collected and sorted. -/
def begin (idnum : Int) (input : Str) (d : Dir) : Begin :=
  match load_cache (fs_read d cacheName) with
  | none => Begin.threw
  | some old =>
    let filename := trim input
    if !fs_exists d filename then Begin.exit1
    else
      match match_name filename with
      | some (wsns :: g2 :: _) =>
        match stoi (g2.drop 2) with
        | none => Begin.threw
        | some stt_to_remove =>
          let d1 := fs_remove d filename
          Begin.job
            { st := { fs := d1, renamed_files := [], deleted_file := some filename,
                      cache_file := some cacheName, old_cache := old },
              cache := old, wsns := wsns,
              renames := sort_renames (collect d1 (pad_num idnum 2) wsns stt_to_remove) }
      | _ => Begin.exit1

/-- The counter is updated and saved: `cache[wsns]--; save_cache(...)`. -/
def update_cache (wsns : Str) (cache : Cache) (st : State) : Option (State × Cache) :=
  let cache1 := cache.set wsns (cache.get wsns - 1)
  match save_cache cache1 with
  | none => none
  | some txt => some ({ st with fs := fs_write st.fs cacheName txt }, cache1)

/-- The end of `main`: `renamed_files.clear(); deleted_file.clear();`. -/
def clear_tracking (st : State) : State :=
  { st with renamed_files := [], deleted_file := none }

/-- How `main` ends, with the folder it leaves. -/
inductive Outcome where
  | threw (fs : Dir)
  | exit1 (fs : Dir)
  | done (fs : Dir)
  deriving DecidableEq

/-- The remover's `main` (the calls of git apart). -/
def main (idnum : Int) (input : Str) (d : Dir) : Outcome :=
  match begin idnum input d with
  | Begin.threw => Outcome.threw d
  | Begin.exit1 => Outcome.exit1 d
  | Begin.job j =>
    match apply_renames j.renames j.st with
    | Except.error st => Outcome.threw st.fs
    | Except.ok st =>
      match update_cache j.wsns j.cache st with
      | none => Outcome.threw st.fs
      | some (st1, _) => Outcome.done (clear_tracking st1).fs

/-- The points of `main`, after the target is deleted, at which a signal is
taken:
* `recorded n`: the first `n` planned renames (all of them when there are
  fewer) are applied and recorded; `recorded 0` is the point right after the
  delete;
* `renamed n`: the first `n` planned renames are applied and recorded and the
  next one is applied by `fs::rename` and not yet pushed to `renamed_files`;
* `saved`: the loop is over and the counter file is saved, the tracking lists
  are not yet cleared. -/
inductive Point where
  | recorded (n : Nat)
  | renamed (n : Nat)
  | saved

/-- The state of the remover at a point of the job (`none` when the run ends
before it reaches the point). -/
def at_point (j : Job) : Point → Option State
  | Point.recorded n =>
    match apply_renames (j.renames.take n) j.st with
    | Except.ok st => some st
    | Except.error _ => none
  | Point.renamed n =>
    match j.renames.drop n with
    | [] => none
    | p :: _ =>
      match apply_renames (j.renames.take n) j.st with
      | Except.ok st => rename_pair p st
      | Except.error _ => none
  | Point.saved =>
    match apply_renames j.renames j.st with
    | Except.ok st => (update_cache j.wsns j.cache st).map Prod.fst
    | Except.error _ => none

/-- The folder left when a signal arrives at the point `pt` and the handler
runs (`none` when the run has ended before that point). -/
def interrupted (idnum : Int) (input : Str) (d : Dir) (pt : Point) : Option Dir :=
  match begin idnum input d with
  | Begin.job j => (at_point j pt).map cleanup_on_signal
  | _ => none

/-- The folder after the renames of the list, applied in order. -/
def rename_all : List (Str × Str) → Dir → Option Dir
  | [], d => some d
  | p :: ps, d =>
    match fs_rename d p.1 p.2 with
    | none => none
    | some d1 => rename_all ps d1

/-- The renames of the handler: the recorded pairs from the last to the first,
each renamed back where the new name exists. -/
def undo_all (l : List (Str × Str)) (d : Dir) : Dir :=
  l.reverse.foldl (fun d p => if fs_exists d p.2 then (fs_rename d p.2 p.1).getD d else d) d

/-- The name of the entry `n` once every file of the series `w` with a number
above `t` has moved down by one. -/
def shifted (id w : Str) (t : Int) (n : Str) : Str :=
  match decode n with
  | some (type, stt) => if type = w ∧ t < stt then new_name id w stt n else n
  | none => n

/-- The state of the renumbering loop: in the folder `d` the files of the series
`w` carry the creator digits `id` and pairwise different numbers, no file has
the number `t`, and the renames `r` still to apply are exactly the files with
a number above `t`, in ascending order of their names, each with its new name. -/
def Pending (id w : Str) (d : Dir) (r : List (Str × Str)) (t : Int) : Prop :=
  (∀ f ∈ d.names, ∀ s, decode f = some (w, s) → (f.drop 2).take 2 = id) ∧
  (∀ f ∈ d.names, ∀ g ∈ d.names, ∀ s, decode f = some (w, s) → decode g = some (w, s) → f = g) ∧
  (∀ p ∈ r, p.1 ∈ d.names ∧ ∃ s, decode p.1 = some (w, s) ∧ t < s ∧ p.2 = new_name id w s p.1) ∧
  (∀ f ∈ d.names, ∀ s, decode f = some (w, s) → t < s → f ∈ r.map Prod.fst) ∧
  r.Pairwise (fun p q => strLt p.1 q.1 = true) ∧
  (∀ f ∈ d.names, decode f ≠ some (w, t)) ∧
  0 ≤ t

end Remover

/-! ## Decimal digits -/

theorem digitChar_isDigit (d : Nat) (h : d < 10) : (digitChar d).isDigit = true := by
  interval_cases d <;> decide

theorem digitChar_toNat (d : Nat) (h : d < 10) : (digitChar d).toNat = 48 + d := by
  interval_cases d <;> decide

theorem digitChar_of_isDigit (c : Char) (h : c.isDigit = true) :
    c.toNat - 48 < 10 ∧ digitChar (c.toNat - 48) = c := by
  have h1 : 48 ≤ c.toNat ∧ c.toNat ≤ 57 := by
    simp [Char.isDigit] at h
    have a := h.1
    have b := h.2
    simp only [UInt32.le_def, Fin.le_def] at a b
    exact ⟨a, b⟩
  refine ⟨by omega, ?_⟩
  unfold digitChar
  have : 48 + (c.toNat - 48) = c.toNat := by omega
  rw [this]
  exact Char.ofNat_toNat c

theorem toDigitsFuel_append (f n : Nat) (acc : Str) :
    toDigitsFuel f n acc = toDigitsFuel f n [] ++ acc := by
  induction f generalizing n acc with
  | zero => simp [toDigitsFuel]
  | succ f ih =>
    simp only [toDigitsFuel]
    split
    · simp
    · rw [ih (n / 10) (digitChar (n % 10) :: acc), ih (n / 10) [digitChar (n % 10)]]
      simp

theorem toDigitsFuel_fuel (f g n : Nat) (acc : Str) (hf : n < f) (hg : n < g) :
    toDigitsFuel f n acc = toDigitsFuel g n acc := by
  induction f generalizing g n acc with
  | zero => omega
  | succ f ih =>
    cases g with
    | zero => omega
    | succ g =>
      simp only [toDigitsFuel]
      split
      · rfl
      · exact ih g (n / 10) _ (by omega) (by omega)

theorem natRepr_lt_ten (n : Nat) (h : n < 10) : natRepr n = [digitChar n] := by
  simp [natRepr, toDigitsFuel, h]

theorem natRepr_ge_ten (n : Nat) (h : 10 ≤ n) :
    natRepr n = natRepr (n / 10) ++ [digitChar (n % 10)] := by
  have h1 : ¬ n < 10 := by omega
  have e : natRepr n = toDigitsFuel n (n / 10) [digitChar (n % 10)] := by
    simp [natRepr, toDigitsFuel, h1]
  rw [e, toDigitsFuel_append n (n / 10) [digitChar (n % 10)],
    toDigitsFuel_fuel n (n / 10 + 1) (n / 10) [] (by omega) (by omega)]
  rfl

theorem digitsVal_append (l : Str) (c : Char) :
    digitsVal (l ++ [c]) = 10 * digitsVal l + (c.toNat - 48) := by
  simp [digitsVal, List.foldl_append]

theorem natRepr_allDigits (n : Nat) : ∀ c ∈ natRepr n, c.isDigit = true := by
  induction n using Nat.strong_induction_on with
  | _ n ih =>
    by_cases h : n < 10
    · rw [natRepr_lt_ten n h]
      intro c hc
      simp at hc
      subst hc
      exact digitChar_isDigit n h
    · rw [natRepr_ge_ten n (by omega)]
      intro c hc
      rcases List.mem_append.1 hc with hc | hc
      · exact ih (n / 10) (by omega) c hc
      · simp at hc
        subst hc
        exact digitChar_isDigit _ (by omega)

theorem natRepr_ne_nil (n : Nat) : natRepr n ≠ [] := by
  by_cases h : n < 10
  · rw [natRepr_lt_ten n h]; simp
  · rw [natRepr_ge_ten n (by omega)]; simp

theorem digitsVal_natRepr (n : Nat) : digitsVal (natRepr n) = n := by
  induction n using Nat.strong_induction_on with
  | _ n ih =>
    by_cases h : n < 10
    · rw [natRepr_lt_ten n h]
      simp [digitsVal, digitChar_toNat n h]
    · rw [natRepr_ge_ten n (by omega), digitsVal_append, ih (n / 10) (by omega),
        digitChar_toNat _ (by omega : n % 10 < 10)]
      omega

theorem natRepr_length_le (k n : Nat) (hk : 0 < k) (h : n < 10 ^ k) : (natRepr n).length ≤ k := by
  induction k generalizing n with
  | zero => omega
  | succ k ih =>
    by_cases h10 : n < 10
    · rw [natRepr_lt_ten n h10]; simp
    · rw [natRepr_ge_ten n (by omega)]
      have hk0 : 0 < k := by
        rcases Nat.eq_zero_or_pos k with h0 | h0
        · subst h0; simp at h; omega
        · exact h0
      have : n / 10 < 10 ^ k := by
        rw [Nat.div_lt_iff_lt_mul (by norm_num)]
        rw [pow_succ] at h
        exact h
      have := ih (n / 10) hk0 this
      simp
      omega

theorem digitsVal_zeros (k : Nat) (l : Str) : digitsVal (List.replicate k '0' ++ l) = digitsVal l := by
  induction k with
  | zero => simp
  | succ k ih =>
    have : ∀ (m : Str), digitsVal ('0' :: m) = digitsVal m := by
      intro m
      simp [digitsVal]
    rw [List.replicate_succ, List.cons_append, this, ih]

theorem intRepr_ofNat (n : Nat) : intRepr (n : Int) = natRepr n := rfl

theorem pad_num_ofNat (n w : Nat) :
    pad_num (n : Int) w = List.replicate (w - (natRepr n).length) '0' ++ natRepr n := rfl

theorem pad_num_allDigits (n w : Nat) : ∀ c ∈ pad_num (n : Int) w, c.isDigit = true := by
  intro c hc
  rw [pad_num_ofNat] at hc
  rcases List.mem_append.1 hc with hc | hc
  · rw [(List.mem_replicate.1 hc).2]; decide
  · exact natRepr_allDigits n c hc

theorem pad_num_length (n w : Nat) (hw : 0 < w) (h : n < 10 ^ w) : (pad_num (n : Int) w).length = w := by
  rw [pad_num_ofNat]
  have := natRepr_length_le w n hw h
  simp
  omega

theorem digitsVal_pad_num (n w : Nat) : digitsVal (pad_num (n : Int) w) = n := by
  rw [pad_num_ofNat, digitsVal_zeros, digitsVal_natRepr]

/-! ## `std::stoi` on decimal text -/

theorem isDigit_facts (c : Char) (h : c.isDigit = true) :
    isSpace c = false ∧ c ≠ '-' ∧ c ≠ '+' ∧ c ≠ '_' ∧ c ≠ '=' ∧ isTrimChar c = false := by
  obtain ⟨hk, hc⟩ := digitChar_of_isDigit c h
  rw [← hc]
  generalize c.toNat - 48 = k at hk
  interval_cases k <;> decide

theorem takeWhile_all {α : Type} (p : α → Bool) (l : List α) (h : ∀ c ∈ l, p c = true) :
    l.takeWhile p = l := by
  induction l with
  | nil => rfl
  | cons a l ih =>
    have ha := h a (List.mem_cons_self a l)
    simp only [List.takeWhile_cons, ha, if_true]
    rw [ih (fun c hc => h c (List.mem_cons_of_mem a hc))]

theorem stoi_sign_digit (c : Char) (cs : Str) (h : c.isDigit = true) :
    stoi_sign (c :: cs) = (false, c :: cs) := by
  obtain ⟨-, h2, h3, -, -, -⟩ := isDigit_facts c h
  unfold stoi_sign
  split
  · rename_i heq; simp at heq; exact absurd heq.1 h2
  · rename_i heq; simp at heq; exact absurd heq.1 h3
  · rfl

theorem stoi_of_digits (ds : Str) (hne : ds ≠ []) (hall : ∀ c ∈ ds, c.isDigit = true)
    (hmax : (digitsVal ds : Int) ≤ INT_MAX) : stoi ds = some (digitsVal ds : Int) := by
  cases ds with
  | nil => exact absurd rfl hne
  | cons c cs =>
    have hc := hall c (List.mem_cons_self c cs)
    obtain ⟨h1, -, -, -, -, -⟩ := isDigit_facts c hc
    have hmin : INT_MIN ≤ (digitsVal (c :: cs) : Int) := by
      have : (0 : Int) ≤ (digitsVal (c :: cs) : Int) := Int.ofNat_nonneg _
      unfold INT_MIN
      omega
    have e1 : List.dropWhile isSpace (c :: cs) = c :: cs := by simp [List.dropWhile_cons, h1]
    unfold stoi
    rw [e1, stoi_sign_digit c cs hc]
    simp only [takeWhile_all _ _ hall]
    simp [stoi_value, hmin, hmax]

theorem stoi_of_neg_digits (ds : Str) (hne : ds ≠ []) (hall : ∀ c ∈ ds, c.isDigit = true)
    (hmin : INT_MIN ≤ -(digitsVal ds : Int)) : stoi ('-' :: ds) = some (-(digitsVal ds : Int)) := by
  have hmax : -(digitsVal ds : Int) ≤ INT_MAX := by
    have : (0 : Int) ≤ (digitsVal ds : Int) := Int.ofNat_nonneg _
    unfold INT_MAX
    omega
  have h1 : isSpace '-' = false := by decide
  have h2 : stoi_sign ('-' :: ds) = (true, ds) := rfl
  have e1 : List.dropWhile isSpace ('-' :: ds) = '-' :: ds := by simp [List.dropWhile_cons, h1]
  unfold stoi
  rw [e1, h2]
  simp only [takeWhile_all _ _ hall]
  simp [stoi_value, hmin, hmax, hne]

theorem stoi_intRepr (v : Int) (h1 : INT_MIN ≤ v) (h2 : v ≤ INT_MAX) : stoi (intRepr v) = some v := by
  cases v with
  | ofNat n =>
    have e := stoi_of_digits (natRepr n) (natRepr_ne_nil n) (natRepr_allDigits n)
      (by rw [digitsVal_natRepr]; exact h2)
    rw [digitsVal_natRepr] at e
    exact e
  | negSucc n =>
    have e := stoi_of_neg_digits (natRepr (n + 1)) (natRepr_ne_nil _) (natRepr_allDigits _)
      (by rw [digitsVal_natRepr]; rw [Int.negSucc_eq] at h1; push_cast; exact h1)
    rw [digitsVal_natRepr] at e
    show stoi ('-' :: natRepr (n + 1)) = some (Int.negSucc n)
    rw [e, Int.negSucc_eq]
    push_cast
    rfl

theorem stoi_pad_num (n w : Nat) (h : (n : Int) ≤ INT_MAX) :
    stoi (pad_num (n : Int) w) = some (n : Int) := by
  have hne : pad_num (n : Int) w ≠ [] := by
    rw [pad_num_ofNat]
    simp [natRepr_ne_nil]
  have e := stoi_of_digits (pad_num (n : Int) w) hne (pad_num_allDigits n w)
    (by rw [digitsVal_pad_num]; exact h)
  rw [digitsVal_pad_num] at e
  exact e

/-- A string of `w` digits is `pad_num` of its value. -/
theorem pad_num_digitsVal (ds : Str) (hall : ∀ c ∈ ds, c.isDigit = true) (hne : ds ≠ []) :
    pad_num (digitsVal ds : Int) ds.length = ds ∧ digitsVal ds < 10 ^ ds.length := by
  induction ds using List.reverseRecOn with
  | nil => exact absurd rfl hne
  | append_singleton l c ih =>
    obtain ⟨hk, hc⟩ := digitChar_of_isDigit c (hall c (by simp))
    have hl : ∀ x ∈ l, x.isDigit = true := fun x hx => hall x (by simp [hx])
    by_cases hnil : l = []
    · subst hnil
      constructor
      · simp only [List.nil_append, digitsVal, List.foldl_cons, List.foldl_nil, List.length_singleton]
        rw [pad_num_ofNat, natRepr_lt_ten _ (by omega)]
        simp
        exact hc
      · simp [digitsVal]
        omega
    · obtain ⟨ih1, ih2⟩ := ih hl hnil
      rw [digitsVal_append]
      constructor
      · rw [pad_num_ofNat] at ih1 ⊢
        by_cases hz : digitsVal l = 0
        · rw [hz] at ih1 ⊢
          simp only [Nat.mul_zero, Nat.zero_add]
          rw [natRepr_lt_ten _ hk]
          rw [natRepr_lt_ten 0 (by omega)] at ih1
          simp only [List.length_singleton, List.length_append] at ih1 ⊢
          rw [hc]
          have e : l = List.replicate (l.length - 1) '0' ++ [digitChar 0] := ih1.symm
          have e0 : digitChar 0 = '0' := by decide
          rw [e0] at e
          have e2 : List.replicate (l.length - 1) '0' ++ ['0'] = List.replicate l.length '0' := by
            have hl1 : 0 < l.length := List.length_pos.2 hnil
            have : l.length = (l.length - 1) + 1 := by omega
            rw [this, List.replicate_succ']
            simp
          rw [e2] at e
          have e3 : l.length + 1 - 1 = l.length := by omega
          rw [e3]
          nth_rewrite 2 [e]
          rfl
        · have h10 : 10 ≤ 10 * digitsVal l + (c.toNat - 48) := by omega
          rw [natRepr_ge_ten _ h10]
          have d1 : (10 * digitsVal l + (c.toNat - 48)) / 10 = digitsVal l := by omega
          have d2 : (10 * digitsVal l + (c.toNat - 48)) % 10 = c.toNat - 48 := by omega
          rw [d1, d2, hc]
          simp only [List.length_append, List.length_singleton]
          have e3 : l.length + 1 - ((natRepr (digitsVal l)).length + 1) =
              l.length - (natRepr (digitsVal l)).length := by omega
          rw [e3, ← List.append_assoc, ih1]
      · simp only [List.length_append, List.length_singleton, pow_succ]
        omega

/-! ## The matcher on the remover's pattern -/

theorem alt_same {α : Type} (a b : Bool) (X : Option α) :
    (if a = true then X else none).orElse (fun _ => if b = true then X else none) =
      if (a || b) = true then X else none := by
  cases a <;> cases b <;> cases X <;> rfl

theorem matchK_word (w s : Str) (caps : List Str) (k : Str → List Str → Option (List Str)) :
    Re.matchK true (Re.word w) s caps k =
      if lower (s.take w.length) == lower w then k (s.drop w.length) caps else none := by
  induction w generalizing s with
  | nil => simp [Re.word, Re.matchK, lower]
  | cons c w ih =>
    cases s with
    | nil => simp [Re.word, Re.matchK, lower]
    | cons x xs =>
      simp only [Re.word, Re.matchK, chrMatches, if_true, ih, List.length_cons, List.take_succ_cons,
        List.drop_succ_cons, lower, List.map_cons]
      by_cases hx : x.toLower = c.toLower
      · simp [hx]
      · simp [hx]

theorem matchK_digits (n : Nat) (s : Str) (caps : List Str) (k : Str → List Str → Option (List Str)) :
    Re.matchK true (Re.times n Re.digit) s caps k =
      if isDigits n (s.take n) then k (s.drop n) caps else none := by
  induction n generalizing s with
  | zero => simp [Re.times, Re.matchK, isDigits]
  | succ n ih =>
    cases s with
    | nil => simp [Re.times, Re.matchK, isDigits]
    | cons x xs =>
      simp only [Re.times, Re.matchK, ih, List.take_succ_cons, List.drop_succ_cons, isDigits,
        List.length_cons, List.all_cons]
      by_cases hx : x.isDigit = true
      · simp [hx]
      · simp [hx]

theorem toLower_toNat (x : Char) :
    x.toLower.toNat = if 65 ≤ x.toNat ∧ x.toNat ≤ 90 then x.toNat + 32 else x.toNat := by
  unfold Char.toLower
  by_cases h : 65 ≤ x.toNat ∧ x.toNat ≤ 90
  · simp only [ge_iff_le, h, and_self, if_true]
    obtain ⟨h1, h2⟩ := h
    generalize x.toNat = n at h1 h2
    interval_cases n <;> decide
  · simp only [ge_iff_le, h, if_false]

theorem toUpper_toNat (x : Char) :
    x.toUpper.toNat = if 97 ≤ x.toNat ∧ x.toNat ≤ 122 then x.toNat - 32 else x.toNat := by
  unfold Char.toUpper
  by_cases h : 97 ≤ x.toNat ∧ x.toNat ≤ 122
  · simp only [ge_iff_le, h, and_self, if_true]
    obtain ⟨h1, h2⟩ := h
    generalize x.toNat = n at h1 h2
    interval_cases n <;> decide
  · simp only [ge_iff_le, h, if_false]

theorem rangeMatches_15 (x : Char) :
    rangeMatches true '1' '5' x = "12345".toList.contains x := by
  have e1 : ('1' : Char).toNat = 49 := by decide
  have e5 : ('5' : Char).toNat = 53 := by decide
  have key : rangeMatches true '1' '5' x = (decide (49 ≤ x.toNat) && decide (x.toNat ≤ 53)) := by
    simp only [rangeMatches, if_true, e1, e5, toLower_toNat, toUpper_toNat]
    by_cases h1 : 65 ≤ x.toNat ∧ x.toNat ≤ 90
    · have h2 : ¬ (97 ≤ x.toNat ∧ x.toNat ≤ 122) := by omega
      simp only [h1, h2, and_self, if_true, if_false]
      have : ¬ x.toNat + 32 ≤ 53 := by omega
      have : ¬ x.toNat ≤ 53 := by omega
      simp [*]
    · by_cases h2 : 97 ≤ x.toNat ∧ x.toNat ≤ 122
      · simp only [h1, h2, and_self, if_true, if_false]
        have : ¬ x.toNat - 32 ≤ 53 := by omega
        have : ¬ x.toNat ≤ 53 := by omega
        simp [*]
      · simp only [h1, h2, if_false]
        simp
  rw [key]
  by_cases h : 49 ≤ x.toNat ∧ x.toNat ≤ 53
  · have hx : x = Char.ofNat x.toNat := (Char.ofNat_toNat x).symm
    obtain ⟨h1, h2⟩ := h
    rw [hx]
    generalize x.toNat = n at h1 h2
    interval_cases n <;> decide
  · have hn : (decide (49 ≤ x.toNat) && decide (x.toNat ≤ 53)) = false := by
      simp
      omega
    rw [hn]
    symm
    rw [Bool.eq_false_iff]
    intro hc
    apply h
    simp at hc
    rcases hc with hc | hc | hc | hc | hc <;> subst hc <;> decide

theorem char_eq_of_toNat (x y : Char) (h : x.toNat = y.toNat) : x = y := by
  rw [← Char.ofNat_toNat x, ← Char.ofNat_toNat y, h]

theorem toLower_eq_underscore (x : Char) : (x.toLower == '_') = (x == '_') := by
  have e : ('_' : Char).toNat = 95 := by decide
  by_cases h : x = '_'
  · subst h; decide
  · have h1 : x.toLower ≠ '_' := by
      intro hc
      have := congrArg Char.toNat hc
      rw [toLower_toNat, e] at this
      apply h
      apply char_eq_of_toNat
      rw [e]
      split at this <;> omega
    simp [h, h1]

theorem toLower_eq_dot (x : Char) : (x.toLower == '.') = (x == '.') := by
  have e : ('.' : Char).toNat = 46 := by decide
  by_cases h : x = '.'
  · subst h; decide
  · have h1 : x.toLower ≠ '.' := by
      intro hc
      have := congrArg Char.toNat hc
      rw [toLower_toNat, e] at this
      apply h
      apply char_eq_of_toNat
      rw [e]
      split at this <;> omega
    simp [h, h1]

theorem matchK_underscore (s : Str) (caps : List Str) (k : Str → List Str → Option (List Str)) :
    Re.matchK true (Re.chr '_') s caps k =
      if s.take 1 == "_".toList then k (s.drop 1) caps else none := by
  cases s with
  | nil => simp [Re.matchK]
  | cons x xs =>
    have e : ('_' : Char).toLower = '_' := by decide
    simp only [Re.matchK, chrMatches, if_true, e, toLower_eq_underscore]
    by_cases hx : x = '_'
    · simp [hx]
    · simp [hx]

theorem matchK_dot (s : Str) (caps : List Str) (k : Str → List Str → Option (List Str)) :
    Re.matchK true (Re.chr '.') s caps k =
      if s.take 1 == ".".toList then k (s.drop 1) caps else none := by
  cases s with
  | nil => simp [Re.matchK]
  | cons x xs =>
    have e : ('.' : Char).toLower = '.' := by decide
    simp only [Re.matchK, chrMatches, if_true, e, toLower_eq_dot]
    by_cases hx : x = '.'
    · simp [hx]
    · simp [hx]

theorem matchK_range15 (s : Str) (caps : List Str) (k : Str → List Str → Option (List Str)) :
    Re.matchK true (Re.range '1' '5') s caps k =
      if (match s.take 1 with
          | [c] => "12345".toList.contains c
          | _ => false) = true then k (s.drop 1) caps else none := by
  cases s with
  | nil => simp [Re.matchK]
  | cons x xs =>
    simp only [Re.matchK, rangeMatches_15]
    rfl

theorem take_sub_drop (s : Str) (n : Nat) : s.take (s.length - (s.drop n).length) = s.take n := by
  rw [List.length_drop]
  by_cases h : n ≤ s.length
  · have : s.length - (s.length - n) = n := by omega
    rw [this]
  · have : s.length - (s.length - n) = s.length := by omega
    rw [this, List.take_length, List.take_of_length_le (by omega)]

theorem word_end (w s : Str) (caps : List Str) :
    (if lower (s.take w.length) == lower w then
      (if (s.drop w.length).isEmpty then
        some (caps ++ [s.take (s.length - (s.drop w.length).length)]) else none)
     else none) = if lower s == lower w then some (caps ++ [s]) else none := by
  by_cases hlen : s.length ≤ w.length
  · rw [List.take_of_length_le hlen, List.drop_of_length_le hlen]
    simp
  · have h1 : (s.drop w.length).isEmpty = false := by
      rw [List.isEmpty_eq_false]
      intro hc
      have := congrArg List.length hc
      simp at this
      omega
    have h2 : (lower s == lower w) = false := by
      rw [beq_eq_false_iff_ne]
      intro hc
      have := congrArg List.length hc
      simp [lower] at this
      omega
    simp [h1, h2]

theorem matchK_seq (a b : Re) (s : Str) (caps : List Str) (k : Str → List Str → Option (List Str)) :
    Re.matchK true (Re.seq a b) s caps k =
      Re.matchK true a s caps (fun s1 caps1 => Re.matchK true b s1 caps1 k) := by
  simp only [Re.matchK]

theorem matchK_alt (a b : Re) (s : Str) (caps : List Str) (k : Str → List Str → Option (List Str)) :
    Re.matchK true (Re.alt a b) s caps k =
      (Re.matchK true a s caps k).orElse (fun _ => Re.matchK true b s caps k) := by
  simp only [Re.matchK]

theorem matchK_group (r : Re) (s : Str) (caps : List Str) (k : Str → List Str → Option (List Str)) :
    Re.matchK true (Re.group r) s caps k =
      Re.matchK true r s caps (fun s1 caps1 => k s1 (caps1 ++ [s.take (s.length - s1.length)])) := by
  simp only [Re.matchK]

theorem ext_end (s : Str) (caps : List Str) :
    ((if (lower (s.take 3) == "tex".toList) = true then
        (if (s.drop 3).isEmpty = true then
          some (caps ++ [s.take (s.length - (s.drop 3).length)]) else none)
       else none).orElse (fun _ =>
        if (lower (s.take 4) == "lean".toList) = true then
          (if (s.drop 4).isEmpty = true then
            some (caps ++ [s.take (s.length - (s.drop 4).length)]) else none)
        else none)) =
    if (lower s == "tex".toList || lower s == "lean".toList) = true then some (caps ++ [s])
    else none := by
  have h3 := word_end "tex".toList s caps
  have h4 := word_end "lean".toList s caps
  have et : lower "tex".toList = "tex".toList := by decide
  have en : lower "lean".toList = "lean".toList := by decide
  have l3 : ("tex".toList).length = 3 := rfl
  have l4 : ("lean".toList).length = 4 := rfl
  rw [et, l3] at h3
  rw [en, l4] at h4
  rw [h3, h4]
  cases (lower s == "tex".toList) <;> cases (lower s == "lean".toList) <;> rfl

/-- The capture groups of a name the pattern accepts. -/
theorem match_name_eq (f : Str) :
    match_name f =
      if grammar f then some [f.take 2, (f.drop 2).take 6, (f.drop 16).take 4, f.drop 21]
      else none := by
  have eWS : lower "WS".toList = "ws".toList := by decide
  have eNS : lower "NS".toList = "ns".toList := by decide
  have eC : lower "_C".toList = "_c".toList := by decide
  have eL : lower "_L".toList = "_l".toList := by decide
  have eM : lower "MATH".toList = "math".toList := by decide
  have eN : lower "LEAN".toList = "lean".toList := by decide
  have et : lower "tex".toList = "tex".toList := by decide
  have en : lower "lean".toList = "lean".toList := by decide
  have l2 : ("WS".toList).length = 2 := rfl
  have l2n : ("NS".toList).length = 2 := rfl
  have l2c : ("_C".toList).length = 2 := rfl
  have l2l : ("_L".toList).length = 2 := rfl
  have l4m : ("MATH".toList).length = 4 := rfl
  have l4n : ("LEAN".toList).length = 4 := rfl
  have l3 : ("tex".toList).length = 3 := rfl
  have l4 : ("lean".toList).length = 4 := rfl
  unfold match_name regex_match re
  simp only [matchK_seq, matchK_alt, matchK_group, matchK_word, matchK_digits, matchK_underscore, matchK_dot, matchK_range15,
    l2, l2n, l2c, l2l, l4m, l4n, l3, l4, eWS, eNS, eC, eL, eM, eN, et, en, ext_end, alt_same]
  simp only [take_sub_drop]
  simp only [List.drop_drop, List.nil_append, List.append_assoc, List.singleton_append,
    List.cons_append, Nat.reduceAdd]
  simp only [grammar, Bool.and_eq_true, ite_and]

/-! ## Decoding a name -/

theorem grammar_eq (f : Str) :
    grammar f = ((lower (f.take 2) == "ws".toList || lower (f.take 2) == "ns".toList) &&
      isDigits 6 ((f.drop 2).take 6) && tailOK (f.drop 8)) := by
  simp only [grammar, tailOK, List.drop_drop, Nat.reduceAdd, Bool.and_assoc]

theorem isDigits_split (s : Str) (h : isDigits 6 s = true) :
    isDigits 2 (s.take 2) = true ∧ isDigits 4 (s.drop 2) = true ∧ s = s.take 2 ++ s.drop 2 := by
  simp only [isDigits, Bool.and_eq_true, beq_iff_eq, List.all_eq_true] at h ⊢
  obtain ⟨h1, h2⟩ := h
  refine ⟨⟨by simp [h1], fun c hc => h2 c (List.mem_of_mem_take hc)⟩,
    ⟨by simp [h1], fun c hc => h2 c (List.mem_of_mem_drop hc)⟩, (List.take_append_drop 2 s).symm⟩

theorem isDigits_val (n : Nat) (s : Str) (hn : 0 < n) (h : isDigits n s = true) :
    pad_num (digitsVal s : Int) n = s ∧ digitsVal s < 10 ^ n ∧ s ≠ [] ∧
      (∀ c ∈ s, c.isDigit = true) := by
  simp only [isDigits, Bool.and_eq_true, beq_iff_eq, List.all_eq_true] at h
  obtain ⟨h1, h2⟩ := h
  have hne : s ≠ [] := by
    intro hc
    rw [hc] at h1
    simp at h1
    omega
  obtain ⟨a, b⟩ := pad_num_digitsVal s h2 hne
  rw [h1] at a b
  exact ⟨a, b, hne, h2⟩

theorem isDigits_pad_num (n w : Nat) (hw : 0 < w) (h : n < 10 ^ w) :
    isDigits w (pad_num (n : Int) w) = true := by
  simp only [isDigits, Bool.and_eq_true, beq_iff_eq, List.all_eq_true]
  exact ⟨pad_num_length n w hw h, pad_num_allDigits n w⟩

/-- What the remover reads off a name: nothing unless the name is in the
grammar, else the first two characters and the value of characters 4 to 7. -/
theorem decode_eq (f : Str) :
    decode f =
      if grammar f then some (f.take 2, (digitsVal ((f.drop 4).take 4) : Int)) else none := by
  unfold decode
  rw [match_name_eq]
  by_cases hg : grammar f = true
  · simp only [hg, if_true]
    have h6 : isDigits 6 ((f.drop 2).take 6) = true := by
      rw [grammar_eq] at hg
      simp only [Bool.and_eq_true] at hg
      exact hg.1.2
    obtain ⟨-, h4, -⟩ := isDigits_split _ h6
    have e : ((f.drop 2).take 6).drop 2 = (f.drop 4).take 4 := by
      rw [List.drop_take, List.drop_drop]
    rw [e] at h4 ⊢
    obtain ⟨-, hv, hne, hall⟩ := isDigits_val 4 _ (by norm_num) h4
    have hmax : ((digitsVal ((f.drop 4).take 4) : Nat) : Int) ≤ INT_MAX := by
      unfold INT_MAX
      omega
    rw [stoi_of_digits _ hne hall hmax]
  · simp only [hg]
    rfl

theorem decode_of_match (f : Str) (gs : List Str) (h : match_name f = some gs) :
    ∃ type stt, decode f = some (type, stt) := by
  rw [match_name_eq] at h
  by_cases hg : grammar f = true
  · exact ⟨_, _, by rw [decode_eq, if_pos hg]⟩
  · simp [hg] at h

/-! ## Names written by the adder -/

theorem name_shape (i : Adder.Input) (stt : Int) :
    i.name stt = i.wsns.str ++ (pad_num i.idnum 2 ++ pad_num stt 4) ++ i.tail := by
  simp [Adder.Input.name, Adder.make_name, Adder.Input.tail, List.append_assoc]

theorem parts_of_append (a b t : Str) (ha : a.length = 2) (hb : b.length = 6) :
    (a ++ b ++ t).take 2 = a ∧ ((a ++ b ++ t).drop 2).take 6 = b ∧ (a ++ b ++ t).drop 8 = t ∧
      ((a ++ b ++ t).drop 4).take 4 = b.drop 2 ∧ ((a ++ b ++ t).drop 2).take 2 = b.take 2 := by
  match a, ha with
  | [a0, a1], _ =>
    match b, hb with
    | [b0, b1, b2, b3, b4, b5], _ => simp

theorem two_digits (s : Str) (h : isDigits 2 s = true) :
    ∃ x y, s = [x, y] ∧ x.isDigit = true ∧ y.isDigit = true := by
  simp only [isDigits, Bool.and_eq_true, beq_iff_eq, List.all_eq_true] at h
  obtain ⟨h1, h2⟩ := h
  match s, h1 with
  | [x, y], _ => exact ⟨x, y, rfl, h2 x (by simp), h2 y (by simp)⟩

theorem series_head (w : Adder.Series) :
    w.str.length = 2 ∧ (lower w.str == "ws".toList || lower w.str == "ns".toList) = true := by
  cases w <;> exact ⟨rfl, by decide⟩

theorem tailOK_tail (i : Adder.Input) (h0 : 0 ≤ i.chapter) (h1 : i.chapter ≤ 99) :
    tailOK i.tail = true := by
  obtain ⟨n, hn⟩ := Int.eq_ofNat_of_zero_le h0
  have hlt : n < 10 ^ 2 := by omega
  obtain ⟨x, y, hxy, hx, hy⟩ := two_digits _ (isDigits_pad_num n 2 (by norm_num) hlt)
  unfold Adder.Input.tail
  rw [hn, hxy]
  cases i.difficulty <;> cases i.cls <;>
    simp [tailOK, isDigits, lower, hx, hy, Adder.Difficulty.str, Adder.Kind.str, Adder.Kind.ext]

theorem head_digits (idnum stt : Int) (hi0 : 0 ≤ idnum) (hi1 : idnum ≤ 99) (hs0 : 0 ≤ stt)
    (hs1 : stt ≤ 9999) :
    isDigits 6 (pad_num idnum 2 ++ pad_num stt 4) = true ∧ (pad_num idnum 2).length = 2 ∧
      (pad_num stt 4).length = 4 := by
  obtain ⟨n, hn⟩ := Int.eq_ofNat_of_zero_le hi0
  obtain ⟨m, hm⟩ := Int.eq_ofNat_of_zero_le hs0
  have hn2 : n < 10 ^ 2 := by omega
  have hm4 : m < 10 ^ 4 := by omega
  rw [hn, hm]
  have l2 := pad_num_length n 2 (by norm_num) hn2
  have l4 := pad_num_length m 4 (by norm_num) hm4
  refine ⟨?_, l2, l4⟩
  simp only [isDigits, Bool.and_eq_true, beq_iff_eq, List.all_eq_true, List.length_append, l2, l4,
    List.mem_append]
  refine ⟨trivial, ?_⟩
  intro c hc
  rcases hc with hc | hc
  · exact pad_num_allDigits n 2 c hc
  · exact pad_num_allDigits m 4 c hc

/-- The facts about an adder name of a valid record that the other proofs use. -/
theorem name_facts (i : Adder.Input) (stt : Int) (hi0 : 0 ≤ i.idnum) (hi1 : i.idnum ≤ 99)
    (hs0 : 0 ≤ stt) (hs1 : stt ≤ 9999) (hc0 : 0 ≤ i.chapter) (hc1 : i.chapter ≤ 99) :
    grammar (i.name stt) = true ∧ (i.name stt).take 2 = i.wsns.str ∧
      (digitsVal (((i.name stt).drop 4).take 4) : Int) = stt ∧
      ((i.name stt).drop 2).take 2 = pad_num i.idnum 2 := by
  obtain ⟨h6, l2, l4⟩ := head_digits i.idnum stt hi0 hi1 hs0 hs1
  have l6 : (pad_num i.idnum 2 ++ pad_num stt 4).length = 6 := by simp [l2, l4]
  obtain ⟨la, hh⟩ := series_head i.wsns
  obtain ⟨p1, p2, p3, p4, p5⟩ := parts_of_append i.wsns.str _ i.tail la l6
  rw [name_shape]
  refine ⟨?_, p1, ?_, ?_⟩
  · rw [grammar_eq, p1, p2, p3, h6, tailOK_tail i hc0 hc1, hh]
    rfl
  · rw [p4]
    have : (pad_num i.idnum 2 ++ pad_num stt 4).drop 2 = pad_num stt 4 := by
      exact List.drop_left' l2
    rw [this]
    obtain ⟨m, hm⟩ := Int.eq_ofNat_of_zero_le hs0
    rw [hm, digitsVal_pad_num]
  · rw [p5]
    exact List.take_left' l2

/-- The remover decodes the adder's name of a valid record to its series token
and its number. -/
theorem decode_name_valid (i : Adder.Input) (stt : Int) (hi0 : 0 ≤ i.idnum) (hi1 : i.idnum ≤ 99)
    (hs0 : 0 ≤ stt) (hs1 : stt ≤ 9999) (hc0 : 0 ≤ i.chapter) (hc1 : i.chapter ≤ 99) :
    decode (i.name stt) = some (i.wsns.str, stt) := by
  obtain ⟨hg, ht, hv, -⟩ := name_facts i stt hi0 hi1 hs0 hs1 hc0 hc1
  rw [decode_eq, if_pos hg, ht, hv]

/-- Claim C1. Round trip of the adder's name through the remover's pattern: for
every valid record (series WS or NS, creator 0..99, sequence 0..9999, chapter
0..99, difficulty L1..L5, kind MATH or LEAN) the name `make_name` builds is
accepted by the pattern, its first capture group is the series token, and the
number read from the last four of the six digits is the sequence. -/
theorem decode_make_name (i : Adder.Input) (stt : Int) (hi0 : 0 ≤ i.idnum) (hi1 : i.idnum ≤ 99)
    (hs0 : 0 ≤ stt) (hs1 : stt ≤ 9999) (hc0 : 0 ≤ i.chapter) (hc1 : i.chapter ≤ 99) :
    (match_name (i.name stt)).isSome = true ∧ decode (i.name stt) = some (i.wsns.str, stt) := by
  obtain ⟨hg, ht, hv, -⟩ := name_facts i stt hi0 hi1 hs0 hs1 hc0 hc1
  constructor
  · rw [match_name_eq, if_pos hg]
    rfl
  · rw [decode_eq, if_pos hg, ht, hv]

theorem decode_make_name_witness :
    (0 : Int) ≤ 7 ∧
      decode ("WS070001_C02_L3_MATH.tex".toList) = some ("WS".toList, 1) :=
  ⟨by decide,
    (decode_make_name
      { idnum := 7, wsns := Adder.Series.WS, chapter := 2, difficulty := Adder.Difficulty.L3,
        cls := Adder.Kind.MATH, content := [] } 1
      (by decide) (by decide) (by decide) (by decide) (by decide) (by decide)).2⟩

/-! ## The counter file -/

theorem stoi_value_range (neg : Bool) (ds : Str) (v : Int) (h : stoi_value neg ds = some v) :
    inIntRange v := by
  unfold stoi_value at h
  by_cases he : ds.isEmpty = true
  · simp [he] at h
  · rw [if_neg he] at h
    dsimp only at h
    generalize (if neg = true then -(digitsVal ds : Int) else (digitsVal ds : Int)) = x at h
    by_cases hr : INT_MIN ≤ x ∧ x ≤ INT_MAX
    · rw [if_pos hr] at h
      simp only [Option.some.injEq] at h
      rw [← h]
      exact hr
    · rw [if_neg hr] at h
      exact absurd h (by simp)

theorem stoi_range (s : Str) (v : Int) (h : stoi s = some v) : inIntRange v :=
  stoi_value_range _ _ v h

theorem lookup_filter_ne (m : Cache) (k k1 : Str) (h : k1 ≠ k) :
    (m.filter (fun e => e.1 != k)).lookup k1 = m.lookup k1 := by
  induction m with
  | nil => rfl
  | cons e m ih =>
    obtain ⟨a, b⟩ := e
    by_cases ha : a = k
    · subst ha
      have h1 : (k1 == a) = false := by simp [h]
      simp [List.filter_cons, List.lookup_cons, h1, ih]
    · by_cases hk : k1 = a
      · subst hk
        simp [List.filter_cons, ha, List.lookup_cons]
      · have h1 : (k1 == a) = false := by simp [hk]
        simp [List.filter_cons, ha, List.lookup_cons, h1, ih]

theorem at_set (m : Cache) (k k1 : Str) (v : Int) :
    (m.set k v).at k1 = if k1 = k then some v else m.at k1 := by
  unfold Cache.set Cache.at
  by_cases h : k1 = k
  · subst h
    simp [List.lookup_cons]
  · have h1 : (k1 == k) = false := by simp [h]
    simp [List.lookup_cons, h1, h, lookup_filter_ne m k k1 h]

theorem get_set (m : Cache) (k k1 : Str) (v : Int) :
    (m.set k v).get k1 = if k1 = k then v else m.get k1 := by
  have := at_set m k k1 v
  unfold Cache.at at this
  unfold Cache.get
  rw [this]
  split <;> rfl

theorem cacheOK_set (m : Cache) (k : Str) (v : Int) (hm : CacheOK m) (hv : inIntRange v) :
    CacheOK (m.set k v) := by
  obtain ⟨ws, ns, h1, h2, r1, r2⟩ := hm
  unfold CacheOK
  rw [at_set, at_set]
  by_cases a : keyWS = k <;> by_cases b : keyNS = k <;> simp [a, b, h1, h2, r1, r2, hv]

theorem cacheOK_init : CacheOK init_cache :=
  ⟨0, 0, by decide, by decide, ⟨by decide, by decide⟩, ⟨by decide, by decide⟩⟩

theorem load_line_ok (m m1 : Cache) (l : Str) (hm : CacheOK m) (h : load_line m l = some m1) :
    CacheOK m1 := by
  unfold load_line at h
  dsimp only at h
  split at h
  · simp only [Option.some.injEq] at h
    rw [← h]
    exact hm
  · split at h
    · exact absurd h (by simp)
    · rename_i v hv
      simp only [Option.some.injEq] at h
      rw [← h]
      exact cacheOK_set m _ v hm (stoi_range _ v hv)

theorem load_lines_ok (ls : List Str) (m m1 : Cache) (hm : CacheOK m)
    (h : load_lines m ls = some m1) : CacheOK m1 := by
  induction ls generalizing m with
  | nil =>
    simp only [load_lines, Option.some.injEq] at h
    rw [← h]
    exact hm
  | cons l ls ih =>
    simp only [load_lines] at h
    split at h
    · exact absurd h (by simp)
    · rename_i m2 h2
      exact ih m2 (load_line_ok m m2 l hm h2) h

theorem load_cache_ok (file : Option Str) (m : Cache) (h : load_cache file = some m) :
    CacheOK m := by
  cases file with
  | none =>
    simp only [load_cache, Option.some.injEq] at h
    rw [← h]
    exact cacheOK_init
  | some txt => exact load_lines_ok _ _ m cacheOK_init h

theorem intRepr_shape (v : Int) :
    ∃ l d, intRepr v = l ++ [d] ∧ d.isDigit = true ∧ ∀ c ∈ l, c.isDigit = true ∨ c = '-' := by
  have key : ∀ n : Nat, ∃ l d, natRepr n = l ++ [d] ∧ d.isDigit = true ∧
      ∀ c ∈ l, c.isDigit = true := by
    intro n
    have hne := natRepr_ne_nil n
    have hall := natRepr_allDigits n
    refine ⟨(natRepr n).dropLast, (natRepr n).getLast hne, (List.dropLast_append_getLast hne).symm,
      hall _ (List.getLast_mem hne), fun c hc => hall c (List.mem_of_mem_dropLast hc)⟩
  cases v with
  | ofNat n =>
    obtain ⟨l, d, e, hd, hl⟩ := key n
    exact ⟨l, d, e, hd, fun c hc => Or.inl (hl c hc)⟩
  | negSucc n =>
    obtain ⟨l, d, e, hd, hl⟩ := key (n + 1)
    refine ⟨'-' :: l, d, ?_, hd, ?_⟩
    · show '-' :: natRepr (n + 1) = '-' :: l ++ [d]
      rw [e]
      rfl
    · intro c hc
      rcases List.mem_cons.1 hc with hc | hc
      · exact Or.inr hc
      · exact Or.inl (hl c hc)

theorem intRepr_chars (v : Int) :
    ∀ c ∈ intRepr v, c ≠ '\n' ∧ c ≠ '=' := by
  obtain ⟨l, d, e, hd, hl⟩ := intRepr_shape v
  rw [e]
  intro c hc
  have : c.isDigit = true ∨ c = '-' := by
    rcases List.mem_append.1 hc with hc | hc
    · exact hl c hc
    · simp at hc
      rw [hc]
      exact Or.inl hd
  rcases this with h | h
  · constructor
    · intro hn
      rw [hn] at h
      exact absurd h (by decide)
    · exact (isDigit_facts c h).2.2.2.2.1
  · rw [h]
    exact ⟨by decide, by decide⟩

theorem getlinesAux_line (l rest cur : Str) (h : ∀ c ∈ l, c ≠ '\n') :
    getlinesAux cur (l ++ '\n' :: rest) = (cur.reverse ++ l) :: getlinesAux [] rest := by
  induction l generalizing cur with
  | nil => simp [getlinesAux]
  | cons c l ih =>
    have hc : (c == '\n') = false := by
      have := h c (List.mem_cons_self c l)
      simp [this]
    have step : getlinesAux cur (c :: (l ++ '\n' :: rest)) =
        getlinesAux (c :: cur) (l ++ '\n' :: rest) := by
      simp only [getlinesAux, hc]
      rfl
    rw [List.cons_append, step, ih (c :: cur) (fun x hx => h x (List.mem_cons_of_mem c hx))]
    simp

theorem getlines_cache_text (ws ns : Int) :
    getlines (cache_text ws ns) = ["WS=".toList ++ intRepr ws, "NS=".toList ++ intRepr ns] := by
  have h1 : ∀ c ∈ "WS=".toList ++ intRepr ws, c ≠ '\n' := by
    intro c hc
    rcases List.mem_append.1 hc with hc | hc
    · simp at hc
      rcases hc with hc | hc | hc <;> rw [hc] <;> decide
    · exact (intRepr_chars ws c hc).1
  have h2 : ∀ c ∈ "NS=".toList ++ intRepr ns, c ≠ '\n' := by
    intro c hc
    rcases List.mem_append.1 hc with hc | hc
    · simp at hc
      rcases hc with hc | hc | hc <;> rw [hc] <;> decide
    · exact (intRepr_chars ns c hc).1
  have e : cache_text ws ns =
      ("WS=".toList ++ intRepr ws) ++ '\n' :: (("NS=".toList ++ intRepr ns) ++ '\n' :: []) := by
    simp [cache_text, List.append_assoc]
  unfold getlines
  rw [e, getlinesAux_line _ _ _ h1, getlinesAux_line _ _ _ h2]
  simp [getlinesAux]

theorem trim_tag (a b : Char) (v : Int) (ha : isTrimChar a = false) :
    trim (a :: b :: '=' :: intRepr v) = a :: b :: '=' :: intRepr v := by
  obtain ⟨l, d, e, hd, -⟩ := intRepr_shape v
  have hdt : isTrimChar d = false := (isDigit_facts d hd).2.2.2.2.2
  unfold trim
  rw [e]
  have e1 : List.dropWhile isTrimChar (a :: b :: '=' :: (l ++ [d])) = a :: b :: '=' :: (l ++ [d]) := by
    simp [List.dropWhile_cons, ha]
  rw [e1]
  have e2 : (a :: b :: '=' :: (l ++ [d])).reverse = d :: (a :: b :: '=' :: l).reverse := by
    simp
  rw [e2]
  have e3 : List.dropWhile isTrimChar (d :: (a :: b :: '=' :: l).reverse) =
      d :: (a :: b :: '=' :: l).reverse := by
    simp [List.dropWhile_cons, hdt]
  rw [e3]
  simp

theorem load_line_tag (m : Cache) (a b : Char) (v : Int) (ha : isTrimChar a = false)
    (ha2 : a ≠ '=') (hb : b ≠ '=') (hv : inIntRange v) :
    load_line m (a :: b :: '=' :: intRepr v) = some (m.set [a, b] v) := by
  unfold load_line
  rw [trim_tag a b v ha]
  have hf : find_char '=' (a :: b :: '=' :: intRepr v) = some 2 := by
    have : List.indexOf '=' (a :: b :: '=' :: intRepr v) = 2 := by
      simp [List.indexOf_cons, ha2, hb]
    unfold find_char
    rw [this]
    simp
  dsimp only
  rw [hf]
  dsimp only
  have hd : List.drop (2 + 1) (a :: b :: '=' :: intRepr v) = intRepr v := rfl
  rw [hd, stoi_intRepr v hv.1 hv.2]
  rfl

/-- Loading the two lines written for `ws` and `ns` gives back `ws` and `ns`. -/
theorem load_cache_text (ws ns : Int) (h1 : inIntRange ws) (h2 : inIntRange ns) :
    load_cache (some (cache_text ws ns)) =
      some ((init_cache.set keyWS ws).set keyNS ns) := by
  unfold load_cache
  dsimp only
  rw [getlines_cache_text]
  have a := load_line_tag init_cache 'W' 'S' ws (by decide) (by decide) (by decide) h1
  have b := load_line_tag (init_cache.set ['W', 'S'] ws) 'N' 'S' ns (by decide) (by decide)
    (by decide) h2
  simp only [load_lines]
  have e1 : "WS=".toList ++ intRepr ws = 'W' :: 'S' :: '=' :: intRepr ws := rfl
  have e2 : "NS=".toList ++ intRepr ns = 'N' :: 'S' :: '=' :: intRepr ns := rfl
  rw [e1, e2, a]
  dsimp only
  rw [b]
  rfl

/-! ## The folder operations -/

theorem exists_iff_mem (d : Dir) (n : Str) : fs_exists d n = true ↔ n ∈ d.names := by
  simp only [fs_exists, Dir.names, List.any_eq_true, List.mem_map, beq_iff_eq]

theorem exists_eq_false (d : Dir) (n : Str) : fs_exists d n = false ↔ n ∉ d.names := by
  rw [← exists_iff_mem]
  simp

theorem mem_names_iff_read (d : Dir) (n : Str) : n ∈ d.names ↔ (fs_read d n).isSome = true := by
  induction d with
  | nil => simp [Dir.names, fs_read]
  | cons e d ih =>
    obtain ⟨a, c⟩ := e
    simp only [Dir.names, fs_read, List.map_cons, List.mem_cons, List.lookup_cons] at ih ⊢
    by_cases h : n = a
    · subst h
      simp
    · have h1 : (n == a) = false := by simp [h]
      rw [h1]
      simp only [h, false_or]
      exact ih

theorem read_remove (d : Dir) (n m : Str) :
    fs_read (fs_remove d n) m = if m = n then none else fs_read d m := by
  induction d with
  | nil => simp [fs_remove, fs_read]
  | cons e d ih =>
    obtain ⟨a, c⟩ := e
    simp only [fs_remove, fs_read, List.filter_cons] at ih ⊢
    by_cases ha : a = n
    · subst ha
      simp only [bne_self_eq_false, Bool.false_eq_true, if_false, ih, List.lookup_cons]
      by_cases hm : m = a
      · simp [hm]
      · have h1 : (m == a) = false := by simp [hm]
        simp [hm, h1]
    · have h2 : (a != n) = true := by simp [ha]
      simp only [h2, if_true, List.lookup_cons, ih]
      by_cases hm : m = a
      · subst hm
        simp [ha]
      · have h1 : (m == a) = false := by simp [hm]
        simp [h1]

theorem read_map_rename (d : Dir) (a b m : Str) (hab : a ≠ b) (hb : b ∉ d.names) :
    fs_read (d.map (fun e => if e.1 == a then (b, e.2) else e)) m =
      if m = b then fs_read d a else if m = a then none else fs_read d m := by
  induction d with
  | nil => simp [fs_read]
  | cons e d ih =>
    obtain ⟨x, c⟩ := e
    have hb1 : b ∉ Dir.names d := fun h => hb (by simp [Dir.names] at h ⊢; exact Or.inr h)
    have hxb : x ≠ b := fun h => hb (by simp [Dir.names, h])
    have ih1 := ih hb1
    simp only [fs_read, List.map_cons] at ih1 ⊢
    by_cases hx : x = a
    · subst hx
      simp only [beq_self_eq_true, if_true, List.lookup_cons]
      by_cases hm : m = b
      · subst hm
        simp
      · have h1 : (m == b) = false := by simp [hm]
        rw [h1]
        simp only [ih1, hm, if_false]
        by_cases hmx : m = x
        · simp [hmx]
        · have h2 : (m == x) = false := by simp [hmx]
          simp [hmx, h2]
    · have h0 : (x == a) = false := by simp [hx]
      simp only [h0, Bool.false_eq_true, if_false, List.lookup_cons]
      by_cases hmx : m = x
      · subst hmx
        simp [hx, hxb]
      · have h2 : (m == x) = false := by simp [hmx]
        rw [h2]
        simp only [ih1]
        by_cases hxa : a = x
        · exact absurd hxa.symm hx
        · have h3 : (a == x) = false := by simp [hxa]
          simp [h3]

theorem remove_of_not_mem (d : Dir) (n : Str) (h : n ∉ d.names) : fs_remove d n = d := by
  unfold fs_remove
  rw [List.filter_eq_self]
  intro e he
  have : e.1 ≠ n := fun hc => h (by rw [← hc]; exact List.mem_map_of_mem _ he)
  simp [this]

theorem names_remove (d : Dir) (n m : Str) : m ∈ (fs_remove d n).names ↔ m ∈ d.names ∧ m ≠ n := by
  rw [mem_names_iff_read, mem_names_iff_read, read_remove]
  by_cases h : m = n
  · simp [h]
  · simp [h]

theorem read_rename (d d1 : Dir) (a b m : Str) (hab : a ≠ b) (h : fs_rename d a b = some d1) :
    fs_read d1 m = if m = b then fs_read d a else if m = a then none else fs_read d m := by
  unfold fs_rename at h
  by_cases ha : fs_exists d a = true
  · have hne : (a == b) = false := by simp [hab]
    rw [if_pos ha, hne] at h
    simp only [Bool.false_eq_true, if_false, Option.some.injEq] at h
    rw [← h, read_map_rename (fs_remove d b) a b m hab (by rw [names_remove]; simp)]
    simp only [read_remove, hab, if_false]
    by_cases hm : m = b
    · simp [hm]
    · simp [hm]
  · simp [ha] at h

theorem rename_isSome (d : Dir) (a b : Str) (h : a ∈ d.names) : ∃ d1, fs_rename d a b = some d1 := by
  unfold fs_rename
  rw [if_pos ((exists_iff_mem d a).2 h)]
  split
  · exact ⟨_, rfl⟩
  · exact ⟨_, rfl⟩

theorem rename_fresh (d : Dir) (a b : Str) (ha : a ∈ d.names) (hab : a ≠ b) (hb : b ∉ d.names) :
    fs_rename d a b = some (d.map (fun e => if e.1 == a then (b, e.2) else e)) := by
  unfold fs_rename
  have hne : (a == b) = false := by simp [hab]
  rw [if_pos ((exists_iff_mem d a).2 ha), hne, remove_of_not_mem d b hb]
  rfl

theorem lookup_cons_ite (d : Dir) (x y m : Str) :
    List.lookup m ((x, y) :: d) = if m = x then some y else List.lookup m d := by
  rw [List.lookup_cons]
  by_cases h : m = x
  · simp [h]
  · have h1 : (m == x) = false := by simp [h]
    simp [h, h1]

theorem read_map_write (d : Dir) (n c m : Str) :
    fs_read (d.map (fun e => if e.1 == n then (n, c) else e)) m =
      if m = n then (fs_read d n).map (fun _ => c) else fs_read d m := by
  induction d with
  | nil => simp [fs_read]
  | cons e d ih =>
    obtain ⟨x, y⟩ := e
    unfold fs_read at ih ⊢
    rw [List.map_cons]
    by_cases hx : x = n
    · subst hx
      have e1 : (if ((x, y).1 == x) = true then (x, c) else (x, y)) = (x, c) := by simp
      rw [e1]
      simp only [lookup_cons_ite, ih]
      by_cases hm : m = x
      · simp [hm]
      · simp [hm]
    · have e1 : (if ((x, y).1 == n) = true then (n, c) else (x, y)) = (x, y) := by simp [hx]
      rw [e1]
      simp only [lookup_cons_ite, ih]
      by_cases hm : m = x
      · subst hm
        simp [hx]
      · by_cases hn : n = x
        · exact absurd hn.symm hx
        · simp [hm, hn]

theorem read_of_not_mem (d : Dir) (n : Str) (h : n ∉ d.names) : fs_read d n = none := by
  have := mem_names_iff_read d n
  cases hx : fs_read d n with
  | none => rfl
  | some v => exact absurd (this.2 (by simp [hx])) h

theorem read_write (d : Dir) (n c m : Str) :
    fs_read (fs_write d n c) m = if m = n then some c else fs_read d m := by
  unfold fs_write
  by_cases h : fs_exists d n = true
  · rw [if_pos h, read_map_write]
    have := (mem_names_iff_read d n).1 ((exists_iff_mem d n).1 h)
    cases hx : fs_read d n with
    | none => simp [hx] at this
    | some v => rfl
  · rw [if_neg h]
    have hn : n ∉ d.names := (exists_eq_false d n).1 (by simpa using h)
    have hr : fs_read d n = none := read_of_not_mem d n hn
    simp only [fs_read, List.lookup_append] at hr ⊢
    by_cases hm : m = n
    · subst hm
      simp [hr, List.lookup_cons]
    · have h1 : (m == n) = false := by simp [hm]
      simp [List.lookup_cons, h1, hm]

theorem names_write (d : Dir) (n c m : Str) :
    m ∈ (fs_write d n c).names ↔ m = n ∨ m ∈ d.names := by
  rw [mem_names_iff_read, mem_names_iff_read, read_write]
  by_cases h : m = n
  · simp [h]
  · simp [h]

/-! ## Names of the adder are told apart -/

theorem series_str_inj (a b : Adder.Series) (h : a.str = b.str) : a = b := by
  cases a <;> cases b <;> first | rfl | exact absurd h (by decide)

theorem split_at_underscore (l1 l2 x y : Str) (h1 : '_' ∉ l1) (h2 : '_' ∉ l2)
    (h : l1 ++ '_' :: x = l2 ++ '_' :: y) : l1 = l2 := by
  induction l1 generalizing l2 with
  | nil =>
    cases l2 with
    | nil => rfl
    | cons c l2 =>
      simp only [List.nil_append, List.cons_append, List.cons.injEq] at h
      exact absurd (by rw [← h.1]; simp) h2
  | cons c l1 ih =>
    cases l2 with
    | nil =>
      simp only [List.nil_append, List.cons_append, List.cons.injEq] at h
      exact absurd (by rw [h.1]; simp) h1
    | cons e l2 =>
      simp only [List.cons_append, List.cons.injEq] at h
      rw [h.1, ih l2 (fun hc => h1 (List.mem_cons_of_mem c hc))
        (fun hc => h2 (List.mem_cons_of_mem e hc)) h.2]

theorem pad_num_chars (v : Int) (w : Nat) : ∀ c ∈ pad_num v w, c.isDigit = true ∨ c = '-' := by
  obtain ⟨l, d, e, hd, hl⟩ := intRepr_shape v
  intro c hc
  unfold pad_num at hc
  rcases List.mem_append.1 hc with hc | hc
  · rw [(List.mem_replicate.1 hc).2]
    exact Or.inl (by decide)
  · rw [e] at hc
    rcases List.mem_append.1 hc with hc | hc
    · exact hl c hc
    · simp at hc
      rw [hc]
      exact Or.inl hd

theorem pad_num_no_underscore (v : Int) (w : Nat) : '_' ∉ pad_num v w := by
  intro h
  rcases pad_num_chars v w _ h with h | h
  · exact absurd h (by decide)
  · exact absurd h (by decide)

theorem pad_num_inj (s : Int) (t w : Nat) (h : pad_num s w = pad_num (t : Int) w) : s = t := by
  cases s with
  | ofNat n =>
    have := congrArg digitsVal h
    rw [show (Int.ofNat n) = ((n : Nat) : Int) from rfl, digitsVal_pad_num, digitsVal_pad_num] at this
    rw [this]
    rfl
  | negSucc n =>
    have hm : '-' ∈ pad_num (Int.negSucc n) w := by
      unfold pad_num
      apply List.mem_append_right
      show '-' ∈ '-' :: natRepr (n + 1)
      simp
    rw [h] at hm
    exact absurd (pad_num_allDigits t w _ hm) (by decide)

theorem tail_cons (i : Adder.Input) : ∃ x, i.tail = '_' :: x := ⟨_, rfl⟩

theorem name_shape_right (i : Adder.Input) (s : Int) :
    i.name s = i.wsns.str ++ (pad_num i.idnum 2 ++ (pad_num s 4 ++ i.tail)) := by
  rw [name_shape]
  simp [List.append_assoc]

/-- Two names of one creator are equal only for the same series and number. -/
theorem name_inj (i j : Adder.Input) (s : Int) (t : Nat) (hid : i.idnum = j.idnum)
    (h : i.name s = j.name (t : Int)) : i.wsns = j.wsns ∧ s = t := by
  rw [name_shape_right, name_shape_right, hid] at h
  obtain ⟨h1, h2⟩ := List.append_inj h (by rw [(series_head i.wsns).1, (series_head j.wsns).1])
  have h3 := List.append_cancel_left h2
  obtain ⟨x, hx⟩ := tail_cons i
  obtain ⟨y, hy⟩ := tail_cons j
  rw [hx, hy] at h3
  have h4 := split_at_underscore _ _ x y (pad_num_no_underscore s 4) (pad_num_no_underscore t 4) h3
  exact ⟨series_str_inj _ _ h1, pad_num_inj s t 4 h4⟩

theorem name_ne_cache (i : Adder.Input) (s : Int) : i.name s ≠ cacheName := by
  rw [name_shape]
  cases i.wsns <;> intro h <;> simp [Adder.Series.str, cacheName] at h

theorem temp_ne_cache (i : Adder.Input) (s : Int) : i.name s ++ ".tmp".toList ≠ cacheName := by
  rw [name_shape]
  cases i.wsns <;> intro h <;> simp [Adder.Series.str, cacheName] at h

theorem name_reverse (j : Adder.Input) (t : Int) :
    (j.name t).reverse.head? = some 'x' ∨ (j.name t).reverse.head? = some 'n' := by
  rw [name_shape]
  unfold Adder.Input.tail
  cases j.cls
  · exact Or.inl (by simp [Adder.Kind.ext])
  · exact Or.inr (by simp [Adder.Kind.ext])

theorem temp_ne_name (f : Str) (j : Adder.Input) (t : Int) : f ++ ".tmp".toList ≠ j.name t := by
  intro h
  have e : (f ++ ".tmp".toList).reverse.head? = some 'p' := by simp
  rw [h] at e
  rcases name_reverse j t with hc | hc <;> rw [hc] at e <;> exact absurd e (by decide)

theorem temp_ne_self (f : Str) : f ++ ".tmp".toList ≠ f := by
  intro h
  have := congrArg List.length h
  simp at this

/-! ## The probe loop -/

theorem probe_spec (d : Dir) (mk : Int → Str) (fuel : Nat) (s t : Int)
    (h : Adder.probe d mk fuel s = some t) :
    s ≤ t ∧ mk t ∉ d.names ∧ ∀ u, s ≤ u → u < t → mk u ∈ d.names := by
  induction fuel generalizing s with
  | zero => simp [Adder.probe] at h
  | succ fuel ih =>
    simp only [Adder.probe] at h
    by_cases he : fs_exists d (mk s) = true
    · rw [if_pos he] at h
      obtain ⟨a, b, c⟩ := ih (s + 1) h
      refine ⟨by omega, b, ?_⟩
      intro u hu1 hu2
      by_cases hus : u = s
      · rw [hus]
        exact (exists_iff_mem d _).1 he
      · exact c u (by omega) hu2
    · rw [if_neg he] at h
      simp only [Option.some.injEq] at h
      subst h
      refine ⟨le_refl _, ?_, ?_⟩
      · exact (exists_eq_false d _).1 (by simpa using he)
      · intro u hu1 hu2
        omega

theorem probe_free (d : Dir) (mk : Int → Str) (fuel : Nat) (s : Int) (h : mk s ∉ d.names) :
    Adder.probe d mk (fuel + 1) s = some s := by
  simp only [Adder.probe]
  rw [if_neg]
  rw [exists_iff_mem]
  exact h

theorem probe_none (d : Dir) (mk : Int → Str) (fuel : Nat) (s : Int)
    (h : Adder.probe d mk fuel s = none) : ∀ k : Nat, k < fuel → mk (s + k) ∈ d.names := by
  induction fuel generalizing s with
  | zero =>
    intro k hk
    omega
  | succ fuel ih =>
    simp only [Adder.probe] at h
    by_cases he : fs_exists d (mk s) = true
    · rw [if_pos he] at h
      intro k hk
      cases k with
      | zero =>
        simp only [Nat.cast_zero, add_zero]
        exact (exists_iff_mem d _).1 he
      | succ k =>
        have := ih (s + 1) h k (by omega)
        have e : s + 1 + (k : Int) = s + ((k + 1 : Nat) : Int) := by push_cast; omega
        rw [e] at this
        exact this
    · rw [if_neg he] at h
      exact absurd h (by simp)

/-- The probe loop ends: with more rounds than the folder has entries it finds a
free name, provided different numbers from `s` on give different names. -/
theorem probe_total (d : Dir) (mk : Int → Str) (s : Int)
    (hinj : ∀ a b : Nat, mk (s + a) = mk (s + b) → a = b) :
    ∃ t, Adder.probe d mk (d.length + 1) s = some t := by
  cases h : Adder.probe d mk (d.length + 1) s with
  | some t => exact ⟨t, rfl⟩
  | none =>
    exfalso
    have hall := probe_none d mk _ s h
    have hnd : ((List.range (d.length + 1)).map (fun k : Nat => mk (s + k))).Nodup :=
      List.Nodup.map_on (fun a _ b _ hab => hinj a b hab) (List.nodup_range _)
    have hsub : (List.range (d.length + 1)).map (fun k : Nat => mk (s + k)) ⊆ d.names := by
      intro x hx
      obtain ⟨k, hk, rfl⟩ := List.mem_map.1 hx
      exact hall k (List.mem_range.1 hk)
    have := (List.subperm_of_subset hnd hsub).length_le
    simp [Dir.names] at this

/-! ## One run of the adder -/

theorem save_cache_of_at (m : Cache) (ws ns : Int) (h1 : m.at keyWS = some ws)
    (h2 : m.at keyNS = some ns) : save_cache m = some (cache_text ws ns) := by
  unfold save_cache
  rw [h1, h2]

theorem cacheOK_save (m : Cache) (h : CacheOK m) :
    ∃ ws ns, m.at keyWS = some ws ∧ m.at keyNS = some ns ∧
      save_cache m = some (cache_text ws ns) := by
  obtain ⟨ws, ns, h1, h2, -, -⟩ := h
  exact ⟨ws, ns, h1, h2, save_cache_of_at m ws ns h1 h2⟩

theorem set_keeps_keys (m : Cache) (k : Str) (v : Int)
    (h : ∃ ws ns, m.at keyWS = some ws ∧ m.at keyNS = some ns) :
    ∃ ws ns, (m.set k v).at keyWS = some ws ∧ (m.set k v).at keyNS = some ns := by
  obtain ⟨ws, ns, h1, h2⟩ := h
  rw [at_set, at_set]
  by_cases a : keyWS = k <;> by_cases b : keyNS = k <;> simp [a, b, h1, h2]

/-- What a run of the adder leaves: the counter file holds the new counters, the
new file holds the content, the temporary name is gone, every other file is as
it was. -/
theorem main_spec (i : Adder.Input) (d : Dir) (old : Cache) (stt : Int)
    (hload : load_cache (fs_read d cacheName) = some old)
    (hprobe : Adder.probe d i.name (d.length + 1) (old.get i.wsns.str + 1) = some stt) :
    ∃ d3 ws ns, Adder.main i d = some d3 ∧
      (old.set i.wsns.str stt).at keyWS = some ws ∧ (old.set i.wsns.str stt).at keyNS = some ns ∧
      ∀ m, fs_read d3 m =
        if m = cacheName then some (cache_text ws ns)
        else if m = i.name stt then some i.content
        else if m = i.name stt ++ ".tmp".toList then none
        else fs_read d m := by
  obtain ⟨ws0, ns0, k1, k2, -, -⟩ := load_cache_ok _ old hload
  obtain ⟨ws, ns, a1, a2⟩ := set_keeps_keys old i.wsns.str stt ⟨ws0, ns0, k1, k2⟩
  have hsave := save_cache_of_at _ ws ns a1 a2
  have htmp : i.name stt ++ ".tmp".toList ∈
      (fs_write d (i.name stt ++ ".tmp".toList) i.content).names := by
    rw [names_write]
    exact Or.inl rfl
  obtain ⟨d2, hren⟩ := rename_isSome _ _ (i.name stt) htmp
  have hread2 := fun m => read_rename _ d2 _ _ m (temp_ne_self (i.name stt)) hren
  refine ⟨fs_write d2 cacheName (cache_text ws ns), ws, ns, ?_, a1, a2, ?_⟩
  · simp only [Adder.main, Adder.run, Adder.start, hload, hprobe, Adder.step, Adder.write_temp,
      Adder.rename_final, hren, Adder.record_created, Adder.update_cache, hsave,
      Adder.clear_created, Option.map_some']
  · intro m
    rw [read_write, hread2, read_write, read_write]
    by_cases h1 : m = cacheName
    · rw [if_pos h1, if_pos h1]
    · rw [if_neg h1, if_neg h1]
      by_cases h2 : m = i.name stt
      · rw [if_pos h2, if_pos h2, if_pos rfl]
      · rw [if_neg h2, if_neg h2]
        by_cases h3 : m = i.name stt ++ ".tmp".toList
        · rw [if_pos h3, if_pos h3]
        · rw [if_neg h3, if_neg h3, if_neg h3]

/-! ## Collisions -/

theorem probe_lt (d : Dir) (mk : Int → Str) (fuel : Nat) (s t : Int)
    (h : Adder.probe d mk fuel s = some t) : t < s + fuel := by
  induction fuel generalizing s with
  | zero => simp [Adder.probe] at h
  | succ fuel ih =>
    simp only [Adder.probe] at h
    by_cases he : fs_exists d (mk s) = true
    · rw [if_pos he] at h
      have := ih (s + 1) h
      push_cast
      omega
    · rw [if_neg he] at h
      simp only [Option.some.injEq] at h
      push_cast
      omega

theorem name_inj_nonneg (i : Adder.Input) (s : Int) (hs : 0 ≤ s) (a b : Nat)
    (h : i.name (s + a) = i.name (s + b)) : a = b := by
  obtain ⟨n, hn⟩ := Int.eq_ofNat_of_zero_le hs
  have e : s + (b : Int) = ((n + b : Nat) : Int) := by rw [hn]; push_cast; rfl
  rw [e] at h
  have := (name_inj i i (s + a) (n + b) rfl h).2
  rw [hn] at this
  push_cast at this
  omega

theorem get_of_at (m : Cache) (k : Str) (v : Int) (h : m.at k = some v) : m.get k = v := by
  unfold Cache.at at h
  unfold Cache.get
  rw [h]
  rfl

theorem series_key (X : Adder.Series) : X.str = keyWS ∨ X.str = keyNS := by
  cases X
  · exact Or.inl rfl
  · exact Or.inr rfl

/-- Counterexample to claim C4 as stated. The folder holds a WS file with
sequence 1 (chapter 5) and the counter says 0; an add to WS for chapter 2 finds
its own name `WS070001_C02_L3_MATH.tex` free and creates it with sequence 1,
not 2: two WS files now carry sequence 1. -/
theorem add_same_sequence_other_chapter :
    (1 : Int) ∈ seqs keyWS
        [(".cache".toList, "WS=0\nNS=0\n".toList), ("WS070001_C05_L1_LEAN.lean".toList, "x".toList)] ∧
      (load_cache (fs_read
        [(".cache".toList, "WS=0\nNS=0\n".toList), ("WS070001_C05_L1_LEAN.lean".toList, "x".toList)]
        cacheName)).map (fun m => m.get keyWS) = some 0 ∧
      Adder.main
        { idnum := 7, wsns := Adder.Series.WS, chapter := 2, difficulty := Adder.Difficulty.L3,
          cls := Adder.Kind.MATH, content := "y".toList }
        [(".cache".toList, "WS=0\nNS=0\n".toList), ("WS070001_C05_L1_LEAN.lean".toList, "x".toList)] =
      some [(".cache".toList, "WS=1\nNS=0\n".toList),
        ("WS070001_C05_L1_LEAN.lean".toList, "x".toList),
        ("WS070001_C02_L3_MATH.tex".toList, "y".toList)] ∧
      seqs keyWS [(".cache".toList, "WS=1\nNS=0\n".toList),
        ("WS070001_C05_L1_LEAN.lean".toList, "x".toList),
        ("WS070001_C02_L3_MATH.tex".toList, "y".toList)] = [1, 1] := by
  decide

/-- Claim C4, amended. When the counter of the requested series says `N - 1`
(`N ≥ 1`) and the name the request gets at sequence `N` (same series, creator,
chapter, difficulty and kind) is occupied, the add does not fail: it creates
its file at the first sequence `stt > N` whose name is free (`N + 1` when that
name is free), with the content given, the counter file then holds `stt` for
the series, and every other file except the temporary path keeps its content. -/
theorem add_skips_occupied_names (i : Adder.Input) (d : Dir) (old : Cache) (N : Int)
    (hN : 1 ≤ N) (hload : load_cache (fs_read d cacheName) = some old)
    (hcount : old.get i.wsns.str = N - 1) (hocc : i.name N ∈ d.names)
    (hint : N + d.length ≤ INT_MAX) :
    ∃ d1 stt, Adder.main i d = some d1 ∧ N < stt ∧ i.name stt ∉ d.names ∧
      (∀ u, N ≤ u → u < stt → i.name u ∈ d.names) ∧
      (i.name (N + 1) ∉ d.names → stt = N + 1) ∧
      fs_read d1 (i.name stt) = some i.content ∧
      (load_cache (fs_read d1 cacheName)).map (fun m => m.get i.wsns.str) = some stt ∧
      ∀ m, m ≠ cacheName → m ≠ i.name stt → m ≠ i.name stt ++ ".tmp".toList →
        fs_read d1 m = fs_read d m := by
  have hstart : old.get i.wsns.str + 1 = N := by omega
  obtain ⟨stt, hprobe⟩ := probe_total d i.name N (name_inj_nonneg i N (by omega))
  obtain ⟨p1, p2, p3⟩ := probe_spec d i.name _ N stt hprobe
  have p4 := probe_lt d i.name _ N stt hprobe
  have hne : stt ≠ N := fun h => p2 (by rw [h]; exact hocc)
  have hlt : N < stt := by omega
  rw [← hstart] at hprobe
  obtain ⟨d3, ws, ns, hmain, a1, a2, hread⟩ := main_spec i d old stt hload hprobe
  obtain ⟨ws0, ns0, k1, k2, r1, r2⟩ := load_cache_ok _ old hload
  have hr : inIntRange stt := by
    unfold inIntRange INT_MIN
    push_cast at p4
    constructor <;> omega
  have hws : inIntRange ws ∧ inIntRange ns := by
    rw [at_set, k1] at a1
    rw [at_set, k2] at a2
    constructor
    · split at a1 <;> simp only [Option.some.injEq] at a1 <;> rw [← a1] <;> assumption
    · split at a2 <;> simp only [Option.some.injEq] at a2 <;> rw [← a2] <;> assumption
  have hget : (old.set i.wsns.str stt).get i.wsns.str = stt := by
    rw [get_set, if_pos rfl]
  refine ⟨d3, stt, hmain, hlt, p2, p3, ?_, ?_, ?_, ?_⟩
  · intro hfree
    by_contra hc
    exact hfree (p3 (N + 1) (by omega) (by omega))
  · rw [hread, if_neg (name_ne_cache i stt), if_pos rfl]
  · rw [hread, if_pos rfl, load_cache_text ws ns hws.1 hws.2]
    simp only [Option.map_some', Option.some.injEq]
    rcases series_key i.wsns with hk | hk
    · rw [hk] at a1 ⊢
      rw [at_set, if_pos rfl] at a1
      simp only [Option.some.injEq] at a1
      rw [get_set, if_neg (by decide), get_set, if_pos rfl, ← a1]
    · rw [hk] at a2 ⊢
      rw [at_set, if_pos rfl] at a2
      simp only [Option.some.injEq] at a2
      rw [get_set, if_pos rfl, ← a2]
  · intro m h1 h2 h3
    rw [hread, if_neg h1, if_neg h2, if_neg h3]

theorem add_skips_occupied_names_witness :
    ∃ d1 stt,
      Adder.main
        { idnum := 7, wsns := Adder.Series.WS, chapter := 2, difficulty := Adder.Difficulty.L3,
          cls := Adder.Kind.MATH, content := "y".toList }
        [(".cache".toList, "WS=0\nNS=0\n".toList), ("WS070001_C02_L3_MATH.tex".toList, "x".toList)] =
        some d1 ∧ (1 : Int) < stt ∧ stt = 1 + 1 :=
  have h := add_skips_occupied_names
    { idnum := 7, wsns := Adder.Series.WS, chapter := 2, difficulty := Adder.Difficulty.L3,
      cls := Adder.Kind.MATH, content := "y".toList }
    [(".cache".toList, "WS=0\nNS=0\n".toList), ("WS070001_C02_L3_MATH.tex".toList, "x".toList)]
    [(keyNS, 0), (keyWS, 0)] 1 (by decide) (by decide) (by decide) (by decide) (by decide)
  match h with
  | ⟨d1, stt, hm, hlt, _, _, hnext, _⟩ => ⟨d1, stt, hm, hlt, hnext (by decide)⟩

/-- Claim C5, the failing case. A signal right after the temporary file is
written finds `created_files` empty: the handler removes nothing and the
temporary file `WS070001_C02_L3_MATH.tex.tmp` stays in the folder. The same
holds right after the rename, before the final path is recorded: the new file
stays. Once the path is recorded, and after the counter file is saved, the
handler does restore the folder and the counter file. -/
theorem interrupted_after_temp_write_leaves_temp :
    Adder.interrupted
        { idnum := 7, wsns := Adder.Series.WS, chapter := 2, difficulty := Adder.Difficulty.L3,
          cls := Adder.Kind.MATH, content := "y".toList }
        [(".cache".toList, "WS=0\nNS=0\n".toList)] 1 =
      some [(".cache".toList, "WS=0\nNS=0\n".toList),
        ("WS070001_C02_L3_MATH.tex.tmp".toList, "y".toList)] ∧
    Adder.interrupted
        { idnum := 7, wsns := Adder.Series.WS, chapter := 2, difficulty := Adder.Difficulty.L3,
          cls := Adder.Kind.MATH, content := "y".toList }
        [(".cache".toList, "WS=0\nNS=0\n".toList)] 2 =
      some [(".cache".toList, "WS=0\nNS=0\n".toList),
        ("WS070001_C02_L3_MATH.tex".toList, "y".toList)] ∧
    Adder.interrupted
        { idnum := 7, wsns := Adder.Series.WS, chapter := 2, difficulty := Adder.Difficulty.L3,
          cls := Adder.Kind.MATH, content := "y".toList }
        [(".cache".toList, "WS=0\nNS=0\n".toList)] 3 =
      some [(".cache".toList, "WS=0\nNS=0\n".toList)] ∧
    Adder.interrupted
        { idnum := 7, wsns := Adder.Series.WS, chapter := 2, difficulty := Adder.Difficulty.L3,
          cls := Adder.Kind.MATH, content := "y".toList }
        [(".cache".toList, "WS=0\nNS=0\n".toList)] 4 =
      some [(".cache".toList, "WS=0\nNS=0\n".toList)] := by
  decide

/-! ## Runs of the adder from an empty folder -/

theorem count_append (X : Adder.Series) (done : List Adder.Input) (i : Adder.Input) :
    Adder.count X (done ++ [i]) = Adder.count X done + if i.wsns = X then 1 else 0 := by
  unfold Adder.count
  rw [List.countP_append]
  by_cases h : i.wsns = X
  · simp [h]
  · simp [h]

theorem count_le_length (X : Adder.Series) (done : List Adder.Input) :
    Adder.count X done ≤ done.length := List.countP_le_length _

theorem natCast_range (n : Nat) (h : (n : Int) ≤ INT_MAX) : inIntRange (n : Int) := by
  unfold inIntRange INT_MIN
  constructor
  · have : (0 : Int) ≤ (n : Int) := Int.ofNat_nonneg n
    omega
  · exact h

/-- The counter map a run loads in a filled folder. -/
theorem filled_load (d : Dir) (done : List Adder.Input) (h : Adder.Filled d done)
    (hlen : (done.length : Int) ≤ INT_MAX) :
    ∃ old, load_cache (fs_read d cacheName) = some old ∧
      old.at keyWS = some (Adder.count Adder.Series.WS done : Int) ∧
      old.at keyNS = some (Adder.count Adder.Series.NS done : Int) := by
  rcases h.1 with ⟨h1, h2⟩ | h1
  · rw [h1, h2]
    exact ⟨init_cache, rfl, by decide, by decide⟩
  · have rw1 : inIntRange (Adder.count Adder.Series.WS done : Int) :=
      natCast_range _ (by have := count_le_length Adder.Series.WS done; omega)
    have rn1 : inIntRange (Adder.count Adder.Series.NS done : Int) :=
      natCast_range _ (by have := count_le_length Adder.Series.NS done; omega)
    rw [h1, load_cache_text _ _ rw1 rn1]
    refine ⟨_, rfl, ?_, ?_⟩
    · rw [at_set, if_neg (by decide), at_set, if_pos rfl]
    · rw [at_set, if_pos rfl]

theorem filled_step (idnum : Int) (d : Dir) (done : List Adder.Input) (i : Adder.Input)
    (h : Adder.Filled d done) (hid : ∀ j ∈ done ++ [i], j.idnum = idnum)
    (hlen : (done.length : Int) < INT_MAX) :
    ∃ d1, Adder.main i d = some d1 ∧ Adder.Filled d1 (done ++ [i]) := by
  obtain ⟨old, hload, kW, kN⟩ := filled_load d done h (by omega)
  have hget : old.get i.wsns.str = (Adder.count i.wsns done : Int) := by
    cases hs : i.wsns
    · exact get_of_at old _ _ kW
    · exact get_of_at old _ _ kN
  have hfree : i.name ((Adder.count i.wsns done : Int) + 1) ∉ d.names := by
    intro hc
    rcases h.2.1 _ hc with e | ⟨j, hj, s, hs1, hs2, e⟩
    · exact name_ne_cache _ _ e
    · have hij : i.idnum = j.idnum := by
        rw [hid i (by simp), hid j (by simp [hj])]
      obtain ⟨e1, e2⟩ := name_inj i j _ s hij e
      rw [← e1] at hs2
      omega
  have hprobe : Adder.probe d i.name (d.length + 1) (old.get i.wsns.str + 1) =
      some ((Adder.count i.wsns done : Int) + 1) := by
    rw [hget]
    exact probe_free d i.name _ _ hfree
  obtain ⟨d3, ws, ns, hmain, a1, a2, hread⟩ := main_spec i d old _ hload hprobe
  have hws : ws = (Adder.count Adder.Series.WS (done ++ [i]) : Int) := by
    rw [at_set, kW] at a1
    rw [count_append]
    cases hs : i.wsns
    · rw [hs] at a1
      rw [if_pos (show keyWS = Adder.Series.WS.str from rfl)] at a1
      simp only [Option.some.injEq] at a1
      rw [← a1]
      simp
    · rw [hs] at a1
      rw [if_neg (by decide)] at a1
      simp only [Option.some.injEq] at a1
      rw [← a1]
      simp
  have hns : ns = (Adder.count Adder.Series.NS (done ++ [i]) : Int) := by
    rw [at_set, kN] at a2
    rw [count_append]
    cases hs : i.wsns
    · rw [hs] at a2
      rw [if_neg (by decide)] at a2
      simp only [Option.some.injEq] at a2
      rw [← a2]
      simp
    · rw [hs] at a2
      rw [if_pos (show keyNS = Adder.Series.NS.str from rfl)] at a2
      simp only [Option.some.injEq] at a2
      rw [← a2]
      simp
  have hnew : i.name ((Adder.count i.wsns done : Int) + 1) ∈ d3.names := by
    rw [mem_names_iff_read, hread, if_neg (name_ne_cache _ _), if_pos rfl]
    rfl
  have hkeep : ∀ (j : Adder.Input) (s : Int), j.name s ∈ d.names → j.name s ∈ d3.names := by
    intro j s hjs
    rw [mem_names_iff_read] at hjs ⊢
    rw [hread, if_neg (name_ne_cache _ _)]
    by_cases e : j.name s = i.name ((Adder.count i.wsns done : Int) + 1)
    · rw [if_pos e]
      rfl
    · rw [if_neg e, if_neg (fun hc => temp_ne_name _ j s hc.symm)]
      exact hjs
  refine ⟨d3, hmain, Or.inr ?_, ?_, ?_⟩
  · rw [hread, if_pos rfl, hws, hns]
  · intro f hf
    by_cases e1 : f = cacheName
    · exact Or.inl e1
    · right
      rw [mem_names_iff_read, hread, if_neg e1] at hf
      by_cases e2 : f = i.name ((Adder.count i.wsns done : Int) + 1)
      · refine ⟨i, by simp, Adder.count i.wsns done + 1, by omega, ?_, ?_⟩
        · rw [count_append, if_pos rfl]
        · rw [e2]
          push_cast
          rfl
      · rw [if_neg e2] at hf
        by_cases e3 : f = i.name ((Adder.count i.wsns done : Int) + 1) ++ ".tmp".toList
        · rw [if_pos e3] at hf
          exact absurd hf (by simp)
        · rw [if_neg e3, ← mem_names_iff_read] at hf
          rcases h.2.1 f hf with e | ⟨j, hj, s, hs1, hs2, e⟩
          · exact absurd e e1
          · refine ⟨j, by simp [hj], s, hs1, ?_, e⟩
            rw [count_append]
            omega
  · intro X s hs1 hs2
    rw [count_append] at hs2
    by_cases hX : i.wsns = X ∧ s = Adder.count X done + 1
    · obtain ⟨e1, e2⟩ := hX
      refine ⟨i, by simp, e1, ?_⟩
      rw [e2, ← e1]
      push_cast
      exact hnew
    · have hle : s ≤ Adder.count X done := by
        by_cases e1 : i.wsns = X
        · rw [if_pos e1] at hs2
          have : s ≠ Adder.count X done + 1 := fun hc => hX ⟨e1, hc⟩
          omega
        · rw [if_neg e1] at hs2
          omega
      obtain ⟨j, hj, hjX, hmem⟩ := h.2.2 X s hs1 hle
      exact ⟨j, by simp [hj], hjX, hkeep j s hmem⟩

theorem filled_mains (idnum : Int) (reqs : List Adder.Input) (d : Dir) (done : List Adder.Input)
    (h : Adder.Filled d done) (hid : ∀ j ∈ done ++ reqs, j.idnum = idnum)
    (hlen : ((done ++ reqs).length : Int) ≤ INT_MAX) :
    ∃ d1, Adder.mains reqs d = some d1 ∧ Adder.Filled d1 (done ++ reqs) := by
  induction reqs generalizing d done with
  | nil =>
    rw [List.append_nil]
    exact ⟨d, rfl, h⟩
  | cons i reqs ih =>
    have e : done ++ i :: reqs = (done ++ [i]) ++ reqs := by simp
    rw [e] at hid hlen ⊢
    obtain ⟨d1, hm, hf⟩ := filled_step idnum d done i h
      (fun j hj => hid j (List.mem_append_left _ hj))
      (by simp only [List.length_append, List.length_singleton] at hlen
          push_cast at hlen
          have : (0 : Int) ≤ (reqs.length : Int) := Int.ofNat_nonneg _
          omega)
    obtain ⟨d2, hm2, hf2⟩ := ih d1 (done ++ [i]) hf hid hlen
    refine ⟨d2, ?_, hf2⟩
    simp only [Adder.mains, hm, hm2]

theorem filled_empty : Adder.Filled [] [] := by
  refine ⟨Or.inl ⟨rfl, rfl⟩, ?_, ?_⟩
  · intro f hf
    simp [Dir.names] at hf
  · intro X s h1 h2
    simp [Adder.count] at h2
    omega

theorem seq_of_eq_some (w f : Str) (s : Int) : seq_of w f = some s ↔ decode f = some (w, s) := by
  unfold seq_of
  cases hd : decode f with
  | none => simp
  | some p =>
    obtain ⟨t, v⟩ := p
    by_cases ht : t = w
    · simp [ht]
    · simp [ht]

theorem mem_seqs (w : Str) (d : Dir) (s : Int) :
    s ∈ seqs w d ↔ ∃ f ∈ d.names, decode f = some (w, s) := by
  unfold seqs
  rw [List.mem_filterMap]
  constructor
  · rintro ⟨f, hf, h⟩
    exact ⟨f, hf, (seq_of_eq_some w f s).1 h⟩
  · rintro ⟨f, hf, h⟩
    exact ⟨f, hf, (seq_of_eq_some w f s).2 h⟩

/-- Claim C3. Dense adds: after any finite sequence of runs of the adder for
one creator, started in an empty folder (no counter file, so the counter is
`WS=0`, `NS=0`), every run succeeds and the sequence numbers of the files of
each series are exactly `1..N`, `N` the number of runs for that series,
whatever chapter, difficulty and kind each run used: a record of the creator
with series `X` and sequence `s` names a file of the folder exactly when
`1 ≤ s ≤ N`, and the folder holds nothing but these files and the counter
file. Where the records are valid (creator and chapters 0..99, at most 9999
runs) the remover's pattern reads exactly the numbers `1..N` off the folder. -/
theorem adds_dense (idnum : Int) (reqs : List Adder.Input) (hid : ∀ i ∈ reqs, i.idnum = idnum)
    (hlen : (reqs.length : Int) ≤ INT_MAX) :
    ∃ d, Adder.mains reqs [] = some d ∧
      (∀ (X : Adder.Series) (s : Int),
        (∃ i : Adder.Input, i.idnum = idnum ∧ i.wsns = X ∧ i.name s ∈ d.names) ↔
          (1 ≤ s ∧ s ≤ Adder.count X reqs)) ∧
      (∀ f ∈ d.names, f = cacheName ∨ ∃ i ∈ reqs, ∃ s : Int, f = i.name s) ∧
      ((0 ≤ idnum ∧ idnum ≤ 99 ∧ (∀ i ∈ reqs, 0 ≤ i.chapter ∧ i.chapter ≤ 99) ∧
          reqs.length ≤ 9999) →
        ∀ (X : Adder.Series) (s : Int),
          s ∈ seqs X.str d ↔ (1 ≤ s ∧ s ≤ Adder.count X reqs)) := by
  obtain ⟨d, hm, -, hb, hc⟩ := filled_mains idnum reqs [] [] filled_empty
    (by simpa using hid) (by simpa using hlen)
  simp only [List.nil_append] at hb hc
  refine ⟨d, hm, ?_, ?_, ?_⟩
  · intro X s
    constructor
    · rintro ⟨i, hi, hX, hmem⟩
      rcases hb _ hmem with e | ⟨j, hj, t, ht1, ht2, e⟩
      · exact absurd e (name_ne_cache _ _)
      · obtain ⟨e1, e2⟩ := name_inj i j s t (by rw [hi, hid j hj]) e
        rw [← hX, e1, e2]
        constructor <;> omega
    · rintro ⟨h1, h2⟩
      obtain ⟨n, hn⟩ := Int.eq_ofNat_of_zero_le (by omega : 0 ≤ s)
      obtain ⟨j, hj, hjX, hmem⟩ := hc X n (by omega) (by omega)
      exact ⟨j, hid j hj, hjX, by rw [hn]; exact hmem⟩
  · intro f hf
    rcases hb f hf with e | ⟨j, hj, t, -, -, e⟩
    · exact Or.inl e
    · exact Or.inr ⟨j, hj, t, e⟩
  · rintro ⟨v1, v2, v3, v4⟩ X s
    rw [mem_seqs]
    constructor
    · rintro ⟨f, hf, hdec⟩
      rcases hb f hf with e | ⟨j, hj, t, ht1, ht2, e⟩
      · have hno : decode cacheName = none := by decide
        rw [e, hno] at hdec
        exact absurd hdec (by simp)
      · have hcl := count_le_length j.wsns reqs
        have h2 := decode_name_valid j t (by rw [hid j hj]; exact v1)
          (by rw [hid j hj]; exact v2) (by omega) (by omega) (v3 j hj).1 (v3 j hj).2
        rw [e, h2] at hdec
        simp only [Option.some.injEq, Prod.mk.injEq] at hdec
        rw [← series_str_inj _ _ hdec.1, ← hdec.2]
        constructor <;> omega
    · rintro ⟨h1, h2⟩
      obtain ⟨n, hn⟩ := Int.eq_ofNat_of_zero_le (by omega : 0 ≤ s)
      obtain ⟨j, hj, hjX, hmem⟩ := hc X n (by omega) (by omega)
      have hcl := count_le_length X reqs
      have h3 := decode_name_valid j n (by rw [hid j hj]; exact v1)
        (by rw [hid j hj]; exact v2) (by omega) (by omega) (v3 j hj).1 (v3 j hj).2
      exact ⟨_, hmem, by rw [h3, hjX, hn]⟩

theorem adds_dense_witness :
    ∃ d,
      Adder.mains
        [{ idnum := 7, wsns := Adder.Series.WS, chapter := 2, difficulty := Adder.Difficulty.L3,
           cls := Adder.Kind.MATH, content := "a".toList },
         { idnum := 7, wsns := Adder.Series.WS, chapter := 5, difficulty := Adder.Difficulty.L1,
           cls := Adder.Kind.LEAN, content := "b".toList }] [] = some d ∧
      ∀ s : Int, s ∈ seqs keyWS d ↔ (1 ≤ s ∧ s ≤ 2) :=
  match adds_dense 7
    [{ idnum := 7, wsns := Adder.Series.WS, chapter := 2, difficulty := Adder.Difficulty.L3,
       cls := Adder.Kind.MATH, content := "a".toList },
     { idnum := 7, wsns := Adder.Series.WS, chapter := 5, difficulty := Adder.Difficulty.L1,
       cls := Adder.Kind.LEAN, content := "b".toList }]
    (by decide) (by decide) with
  | ⟨d, hm, _, _, h⟩ =>
    ⟨d, hm, fun s => h ⟨by decide, by decide, by decide, by decide⟩ Adder.Series.WS s⟩

/-! ## The counter file: load and save -/

/-- Claim C10. Saving what was loaded is idempotent: whenever `load_cache`
succeeds on a counter file (missing or with any content), `save_cache` of the
loaded map writes exactly the two lines `WS=<int>` and `NS=<int>` with the
loaded values; loading that file succeeds, gives the same two values, and saving
again writes the identical file. -/
theorem save_load_idempotent (file : Option Str) (m : Cache) (h : load_cache file = some m) :
    ∃ ws ns, m.at keyWS = some ws ∧ m.at keyNS = some ns ∧
      save_cache m = some (cache_text ws ns) ∧
      getlines (cache_text ws ns) = ["WS=".toList ++ intRepr ws, "NS=".toList ++ intRepr ns] ∧
      ∃ m1, load_cache (some (cache_text ws ns)) = some m1 ∧
        m1.at keyWS = some ws ∧ m1.at keyNS = some ns ∧
        save_cache m1 = some (cache_text ws ns) := by
  obtain ⟨ws, ns, h1, h2, r1, r2⟩ := load_cache_ok file m h
  have a1 : ((init_cache.set keyWS ws).set keyNS ns).at keyWS = some ws := by
    rw [at_set, if_neg (by decide), at_set, if_pos rfl]
  have a2 : ((init_cache.set keyWS ws).set keyNS ns).at keyNS = some ns := by
    rw [at_set, if_pos rfl]
  exact ⟨ws, ns, h1, h2, save_cache_of_at m ws ns h1 h2, getlines_cache_text ws ns,
    _, load_cache_text ws ns r1 r2, a1, a2, save_cache_of_at _ ws ns a1 a2⟩

theorem save_load_idempotent_witness :
    load_cache (some " WS = 3x\nfoo\nNS=-4\nWS=5\n\nbar=1".toList) =
        some [("bar".toList, 1), (keyWS, 5), (keyNS, -4), ("WS ".toList, 3)] ∧
      ∃ ws ns, Cache.at [("bar".toList, 1), (keyWS, 5), (keyNS, -4), ("WS ".toList, 3)] keyWS = some ws ∧
        Cache.at [("bar".toList, 1), (keyWS, 5), (keyNS, -4), ("WS ".toList, 3)] keyNS = some ns ∧
        save_cache [("bar".toList, 1), (keyWS, 5), (keyNS, -4), ("WS ".toList, 3)] =
          some (cache_text ws ns) ∧
        getlines (cache_text ws ns) = ["WS=".toList ++ intRepr ws, "NS=".toList ++ intRepr ns] ∧
        ∃ m1, load_cache (some (cache_text ws ns)) = some m1 ∧
          m1.at keyWS = some ws ∧ m1.at keyNS = some ns ∧
          save_cache m1 = some (cache_text ws ns) :=
  ⟨by decide,
    save_load_idempotent (some " WS = 3x\nfoo\nNS=-4\nWS=5\n\nbar=1".toList)
      [("bar".toList, 1), (keyWS, 5), (keyNS, -4), ("WS ".toList, 3)] (by decide)⟩

/-- Claim C9, the failing inputs. On the counter files `WS=abc` and `WS=` the
call of `std::stoi` in `load_cache` throws and nothing catches it: the line is
not skipped and no counter state is returned. A line without `=` and a missing
or empty file are tolerated. -/
theorem load_cache_throws_on_bad_value :
    load_cache (some "WS=abc".toList) = none ∧ load_cache (some "WS=".toList) = none ∧
      load_cache (some "NS=2\nWS=abc\n".toList) = none ∧
      load_cache (some "no equals sign\nWS=4\n".toList) = some [(keyWS, 4), (keyNS, 0)] ∧
      load_cache (some []) = some [(keyNS, 0), (keyWS, 0)] ∧
      load_cache none = some [(keyNS, 0), (keyWS, 0)] := by
  decide

/-! ## The filename pattern -/

/-- Counterexample to claim C8 as stated. The name `WS070001_C02_L3_MATH.lean`
has kind MATH and extension `.lean`; the pattern accepts it all the same, and
the remover deletes the file and decrements the counter. -/
theorem kind_extension_mismatch_accepted :
    match_name "WS070001_C02_L3_MATH.lean".toList =
        some ["WS".toList, "070001".toList, "MATH".toList, "lean".toList] ∧
      kindMatchesExt "WS070001_C02_L3_MATH.lean".toList = false ∧
      Remover.main 7 "WS070001_C02_L3_MATH.lean".toList
        [(".cache".toList, "WS=1\nNS=0\n".toList), ("WS070001_C02_L3_MATH.lean".toList, "x".toList)] =
        Remover.Outcome.done [(".cache".toList, "WS=0\nNS=0\n".toList)] := by
  decide

theorem begin_rejects (idnum : Int) (input : Str) (d : Dir)
    (h : match_name (trim input) = none) :
    Remover.begin idnum input d = Remover.Begin.exit1 ∨
      Remover.begin idnum input d = Remover.Begin.threw := by
  unfold Remover.begin
  cases load_cache (fs_read d cacheName) with
  | none => exact Or.inr rfl
  | some old =>
    left
    dsimp only
    rw [h]
    split <;> rfl

/-- Claim C8, amended. The remover's decode accepts a name exactly when it is
in the grammar `^(WS|NS)\d{6}_C\d{2}_L[1-5]_(MATH|LEAN)\.(tex|lean)$` with
letters in either case; kind and extension are matched independently of each
other. A name the pattern rejects ends the run before anything is deleted or
renamed: the program returns 1 (or has died loading the counter file) and the
folder is as it was. -/
theorem decode_accepts_grammar (f : Str) (idnum : Int) (input : Str) (d : Dir) :
    ((match_name f).isSome = true ↔ grammar f = true) ∧
      (match_name (trim input) = none →
        Remover.main idnum input d = Remover.Outcome.exit1 d ∨
          Remover.main idnum input d = Remover.Outcome.threw d) := by
  constructor
  · rw [match_name_eq]
    by_cases hg : grammar f = true
    · simp [hg]
    · simp [hg]
  · intro h
    unfold Remover.main
    rcases begin_rejects idnum input d h with e | e
    · rw [e]
      exact Or.inl rfl
    · rw [e]
      exact Or.inr rfl

theorem decode_accepts_grammar_witness :
    match_name (trim "WS07001_C02_L3_MATH.tex".toList) = none ∧
      (Remover.main 7 "WS07001_C02_L3_MATH.tex".toList
          [(".cache".toList, "WS=1\nNS=0\n".toList), ("WS07001_C02_L3_MATH.tex".toList, "x".toList)] =
        Remover.Outcome.exit1
          [(".cache".toList, "WS=1\nNS=0\n".toList), ("WS07001_C02_L3_MATH.tex".toList, "x".toList)] ∨
       Remover.main 7 "WS07001_C02_L3_MATH.tex".toList
          [(".cache".toList, "WS=1\nNS=0\n".toList), ("WS07001_C02_L3_MATH.tex".toList, "x".toList)] =
        Remover.Outcome.threw
          [(".cache".toList, "WS=1\nNS=0\n".toList), ("WS07001_C02_L3_MATH.tex".toList, "x".toList)]) :=
  ⟨by decide,
    (decode_accepts_grammar [] 7 "WS07001_C02_L3_MATH.tex".toList
      [(".cache".toList, "WS=1\nNS=0\n".toList), ("WS07001_C02_L3_MATH.tex".toList, "x".toList)]).2
      (by decide)⟩

/-! ## The counter after a remove -/

/-- Claim C7, the failing input. The folder holds one WS file, named with a
lower-case series token, and the counter file says `WS=1`. The pattern accepts
the name, the file is deleted, but `cache[wsns]--` decrements the key `ws`:
the counter file written still says `WS=1` although no WS file is left. -/
theorem remove_lower_case_keeps_counter :
    (match_name "ws010001_C02_L3_MATH.tex".toList).isSome = true ∧
      Remover.main 1 "ws010001_C02_L3_MATH.tex".toList
        [(".cache".toList, "WS=1\nNS=0\n".toList), ("ws010001_C02_L3_MATH.tex".toList, "x".toList)] =
        Remover.Outcome.done [(".cache".toList, "WS=1\nNS=0\n".toList)] := by
  decide

/-! ## Names of one series and their order -/

theorem strLt_irrefl (a : Str) : strLt a a = false := by
  induction a with
  | nil => rfl
  | cons x xs ih => simp [strLt, ih]

theorem strLt_asymm (a b : Str) (h : strLt a b = true) : strLt b a = false := by
  induction a generalizing b with
  | nil =>
    cases b with
    | nil => rfl
    | cons y ys => rfl
  | cons x xs ih =>
    cases b with
    | nil => simp [strLt] at h
    | cons y ys =>
      simp only [strLt] at h ⊢
      by_cases h1 : x.toNat < y.toNat
      · have h2 : ¬ y.toNat < x.toNat := by omega
        simp [h1, h2]
      · by_cases h2 : y.toNat < x.toNat
        · simp [h1, h2] at h
        · simp only [h1, h2, if_false] at h ⊢
          exact ih ys h

theorem strLt_total (a b : Str) (h : a ≠ b) : strLt a b = true ∨ strLt b a = true := by
  induction a generalizing b with
  | nil =>
    cases b with
    | nil => exact absurd rfl h
    | cons y ys => exact Or.inl rfl
  | cons x xs ih =>
    cases b with
    | nil => exact Or.inr rfl
    | cons y ys =>
      simp only [strLt]
      by_cases h1 : x.toNat < y.toNat
      · simp [h1]
      · by_cases h2 : y.toNat < x.toNat
        · simp [h1, h2]
        · simp only [h1, h2, if_false]
          have hxy : x = y := char_eq_of_toNat x y (by omega)
          exact ih ys (fun hc => h (by rw [hxy, hc]))

theorem strLe_trans (a b c : Str) (h1 : strLt b a = false) (h2 : strLt c b = false) :
    strLt c a = false := by
  induction a generalizing b c with
  | nil =>
    cases c with
    | nil => rfl
    | cons z zs => rfl
  | cons x xs ih =>
    cases b with
    | nil => simp [strLt] at h1
    | cons y ys =>
      cases c with
      | nil => simp [strLt] at h2
      | cons z zs =>
        simp only [strLt] at h1 h2 ⊢
        by_cases a1 : y.toNat < x.toNat
        · simp [a1] at h1
        · by_cases a2 : z.toNat < y.toNat
          · simp [a2] at h2
          · by_cases a3 : x.toNat < y.toNat
            · have b1 : ¬ z.toNat < x.toNat := by omega
              have b2 : x.toNat < z.toNat := by omega
              simp [b1, b2]
            · by_cases a4 : y.toNat < z.toNat
              · have b1 : ¬ z.toNat < x.toNat := by omega
                have b2 : x.toNat < z.toNat := by omega
                simp [b1, b2]
              · simp only [a1, a2, a3, a4, if_false] at h1 h2
                have b1 : ¬ z.toNat < x.toNat := by omega
                have b2 : ¬ x.toNat < z.toNat := by omega
                simp only [b1, b2, if_false]
                exact ih ys zs h1 h2

theorem strLt_append_left (p x y : Str) : strLt (p ++ x) (p ++ y) = strLt x y := by
  induction p with
  | nil => rfl
  | cons c p ih => simp [strLt, ih]

theorem digitsVal_foldl (acc : Nat) (cs : Str) :
    List.foldl (fun a c => 10 * a + (c.toNat - 48)) acc cs =
      acc * 10 ^ cs.length + digitsVal cs := by
  induction cs generalizing acc with
  | nil => simp [digitsVal]
  | cons c cs ih =>
    simp only [List.foldl_cons, List.length_cons, digitsVal]
    rw [ih, ih (10 * 0 + (c.toNat - 48))]
    ring

theorem digitsVal_cons (c : Char) (cs : Str) :
    digitsVal (c :: cs) = (c.toNat - 48) * 10 ^ cs.length + digitsVal cs := by
  simp only [digitsVal, List.foldl_cons]
  rw [digitsVal_foldl]
  simp [digitsVal]

theorem digitsVal_lt (ds : Str) (h : ∀ c ∈ ds, c.isDigit = true) : digitsVal ds < 10 ^ ds.length := by
  by_cases hne : ds = []
  · rw [hne]
    simp [digitsVal]
  · exact (pad_num_digitsVal ds h hne).2

/-- On digit strings of one length the order of the strings is the order of
their values. -/
theorem strLt_of_digitsVal_lt (ds es x y : Str) (hl : ds.length = es.length)
    (hd : ∀ c ∈ ds, c.isDigit = true) (he : ∀ c ∈ es, c.isDigit = true)
    (h : digitsVal ds < digitsVal es) : strLt (ds ++ x) (es ++ y) = true := by
  induction ds generalizing es with
  | nil =>
    cases es with
    | nil => simp [digitsVal] at h
    | cons e es => simp at hl
  | cons c cs ih =>
    cases es with
    | nil => simp at hl
    | cons e es =>
      simp only [List.length_cons, Nat.add_right_cancel_iff] at hl
      have hcs : ∀ a ∈ cs, a.isDigit = true := fun a ha => hd a (List.mem_cons_of_mem c ha)
      have hes : ∀ a ∈ es, a.isDigit = true := fun a ha => he a (List.mem_cons_of_mem e ha)
      have b1 := digitsVal_lt cs hcs
      have b2 := digitsVal_lt es hes
      rw [digitsVal_cons, digitsVal_cons, hl] at h
      rw [hl] at b1
      obtain ⟨-, hc⟩ := digitChar_of_isDigit c (hd c (List.mem_cons_self c cs))
      obtain ⟨-, hee⟩ := digitChar_of_isDigit e (he e (List.mem_cons_self e es))
      have hc48 : 48 ≤ c.toNat := by
        have := hd c (List.mem_cons_self c cs)
        simp [Char.isDigit] at this
        have a := this.1
        simp only [UInt32.le_def, Fin.le_def] at a
        exact a
      have he48 : 48 ≤ e.toNat := by
        have := he e (List.mem_cons_self e es)
        simp [Char.isDigit] at this
        have a := this.1
        simp only [UInt32.le_def, Fin.le_def] at a
        exact a
      simp only [List.cons_append, strLt]
      by_cases h1 : c.toNat < e.toNat
      · simp [h1]
      · by_cases h2 : e.toNat < c.toNat
        · exfalso
          have : (e.toNat - 48 + 1) * 10 ^ es.length ≤ (c.toNat - 48) * 10 ^ es.length :=
            Nat.mul_le_mul_right _ (by omega)
          rw [Nat.add_mul, Nat.one_mul] at this
          omega
        · simp only [h1, h2, if_false]
          have hce : c.toNat = e.toNat := by omega
          rw [hce] at h
          exact ih es hl hcs hes (by omega)

/-- The parts of a name the remover decodes to the series token `w` and the
number `s`. -/
theorem decode_parts (f w : Str) (s : Int) (h : decode f = some (w, s)) :
    grammar f = true ∧ f.take 2 = w ∧ w.length = 2 ∧ 0 ≤ s ∧ s ≤ 9999 ∧
      isDigits 4 ((f.drop 4).take 4) = true ∧
      s = (digitsVal ((f.drop 4).take 4) : Int) ∧
      (f.drop 4).take 4 = pad_num s 4 ∧ isDigits 2 ((f.drop 2).take 2) = true ∧
      tailOK (f.drop 8) = true ∧
      (lower w == "ws".toList || lower w == "ns".toList) = true ∧
      f = w ++ ((f.drop 2).take 2 ++ (pad_num s 4 ++ f.drop 8)) := by
  rw [decode_eq] at h
  by_cases hg : grammar f = true
  · rw [if_pos hg] at h
    simp only [Option.some.injEq, Prod.mk.injEq] at h
    obtain ⟨hw, hs⟩ := h
    have hg2 := hg
    rw [grammar_eq] at hg2
    simp only [Bool.and_eq_true] at hg2
    obtain ⟨⟨hh, h6⟩, ht⟩ := hg2
    obtain ⟨d2, d4, -⟩ := isDigits_split _ h6
    have e2 : ((f.drop 2).take 6).take 2 = (f.drop 2).take 2 := by
      rw [List.take_take]
      rfl
    have e4 : ((f.drop 2).take 6).drop 2 = (f.drop 4).take 4 := by
      rw [List.drop_take, List.drop_drop]
    rw [e2] at d2
    rw [e4] at d4
    obtain ⟨v1, v2, -, -⟩ := isDigits_val 4 _ (by norm_num) d4
    have hlen : (f.take 2).length = 2 := by
      have : (lower (f.take 2)).length = 2 := by
        rcases Bool.or_eq_true_iff.1 hh with a | a
        · rw [beq_iff_eq.1 a]; rfl
        · rw [beq_iff_eq.1 a]; rfl
      simpa [lower] using this
    have hpad : (f.drop 4).take 4 = pad_num s 4 := by
      rw [← hs, v1]
    refine ⟨hg, hw, by rw [← hw]; exact hlen, by rw [← hs]; exact Int.ofNat_nonneg _,
      by rw [← hs]; omega, d4, hs.symm, hpad, d2, ht, by rw [← hw]; exact hh, ?_⟩
    rw [← hpad, ← hw]
    have a1 : f.drop 4 = (f.drop 4).take 4 ++ f.drop 8 := by
      have := (List.take_append_drop 4 (f.drop 4)).symm
      rw [List.drop_drop] at this
      exact this
    have a2 : f.drop 2 = (f.drop 2).take 2 ++ f.drop 4 := by
      have := (List.take_append_drop 2 (f.drop 2)).symm
      rw [List.drop_drop] at this
      exact this
    rw [← a1, ← a2, List.take_append_drop]
  · simp [hg] at h

/-- The new name of a renumbered file: it decodes to the same series token and
the number one less, keeps the creator digits and everything behind the number,
and differs from the old name in the four digits of the number only. -/
theorem new_name_decode (f w id : Str) (s : Int) (h : decode f = some (w, s))
    (hid : (f.drop 2).take 2 = id) (hs : 1 ≤ s) :
    decode (Remover.new_name id w s f) = some (w, s - 1) ∧
      ((Remover.new_name id w s f).drop 2).take 2 = id ∧
      (Remover.new_name id w s f).drop 8 = f.drop 8 ∧
      Remover.new_name id w s f = f.take 4 ++ pad_num (s - 1) 4 ++ f.drop 8 := by
  obtain ⟨-, hw, hwl, h0, h1, -, -, -, d2, ht, hh, hf⟩ := decode_parts f w s h
  rw [hid] at d2 hf
  obtain ⟨n, hn⟩ := Int.eq_ofNat_of_zero_le (by omega : 0 ≤ s - 1)
  have hn4 : n < 10 ^ 4 := by omega
  have p4 := isDigits_pad_num n 4 (by norm_num) hn4
  have l4 := pad_num_length n 4 (by norm_num) hn4
  have l2 : id.length = 2 := by
    simp only [isDigits, Bool.and_eq_true, beq_iff_eq] at d2
    exact d2.1
  have hall2 : ∀ c ∈ id, c.isDigit = true := by
    simp only [isDigits, Bool.and_eq_true, List.all_eq_true] at d2
    exact d2.2
  have d6 : isDigits 6 (id ++ pad_num (n : Int) 4) = true := by
    simp only [isDigits, Bool.and_eq_true, beq_iff_eq, List.all_eq_true, List.length_append,
      List.mem_append, l2, l4]
    refine ⟨trivial, ?_⟩
    intro c hc
    rcases hc with hc | hc
    · exact hall2 c hc
    · exact pad_num_allDigits n 4 c hc
  have l6 : (id ++ pad_num (n : Int) 4).length = 6 := by simp [l2, l4]
  have shape : Remover.new_name id w s f = w ++ (id ++ pad_num (n : Int) 4) ++ f.drop 8 := by
    unfold Remover.new_name
    rw [hn]
    simp [List.append_assoc]
  obtain ⟨q1, q2, q3, q4, q5⟩ := parts_of_append w (id ++ pad_num (n : Int) 4) (f.drop 8) hwl l6
  have e4 : (id ++ pad_num (n : Int) 4).drop 2 = pad_num (n : Int) 4 := List.drop_left' l2
  have e2 : (id ++ pad_num (n : Int) 4).take 2 = id := List.take_left' l2
  refine ⟨?_, ?_, ?_, ?_⟩
  · rw [decode_eq, shape]
    have hg : grammar (w ++ (id ++ pad_num (n : Int) 4) ++ f.drop 8) = true := by
      rw [grammar_eq, q1, q2, q3, d6, ht, hh]
      rfl
    rw [if_pos hg, q1, q4, e4, digitsVal_pad_num, hn]
  · rw [shape, q5, e2]
  · rw [shape, q3]
  · have t4 : f.take 4 = w ++ id := by
      have hl : (w ++ id).length = 4 := by simp [hwl, l2]
      have : f = (w ++ id) ++ (pad_num s 4 ++ f.drop 8) := by
        rw [List.append_assoc]
        exact hf
      rw [this]
      exact List.take_left' hl
    rw [t4]
    unfold Remover.new_name
    rfl

/-- Two names of one series and creator stand in the order of their numbers. -/
theorem name_order (f g w id : Str) (s t : Int) (hf : decode f = some (w, s))
    (hg : decode g = some (w, t)) (idf : (f.drop 2).take 2 = id) (idg : (g.drop 2).take 2 = id)
    (h : s < t) : strLt f g = true := by
  obtain ⟨-, -, -, -, -, f4, fs, fp, -, -, -, ff⟩ := decode_parts f w s hf
  obtain ⟨-, -, -, -, -, g4, gs, gp, -, -, -, gg⟩ := decode_parts g w t hg
  rw [idf] at ff
  rw [idg] at gg
  rw [ff, gg, strLt_append_left, strLt_append_left, ← fp, ← gp]
  simp only [isDigits, Bool.and_eq_true, beq_iff_eq, List.all_eq_true] at f4 g4
  apply strLt_of_digitsVal_lt _ _ _ _ (by rw [f4.1, g4.1]) f4.2 g4.2
  rw [fs, gs] at h
  exact_mod_cast h

/-! ## The renumbering loop -/

theorem names_map_rename (d : Dir) (a b : Str) :
    Dir.names (d.map (fun e => if e.1 == a then (b, e.2) else e)) =
      d.names.map (fun n => if n = a then b else n) := by
  unfold Dir.names
  rw [List.map_map, List.map_map]
  apply List.map_congr_left
  intro e _
  by_cases h : e.1 = a
  · simp [h]
  · simp [h]

theorem apply_renames_eq (r : List (Str × Str)) (st : Remover.State) (dn : Dir)
    (h : Remover.rename_all r st.fs = some dn) :
    Remover.apply_renames r st =
      Except.ok { st with fs := dn, renamed_files := st.renamed_files ++ r } := by
  induction r generalizing st with
  | nil =>
    simp only [Remover.rename_all, Option.some.injEq] at h
    subst h
    simp [Remover.apply_renames]
  | cons p ps ih =>
    simp only [Remover.rename_all] at h
    simp only [Remover.apply_renames, Remover.rename_pair, Remover.record_renamed]
    cases h1 : fs_rename st.fs p.1 p.2 with
    | none =>
      rw [h1] at h
      exact absurd h (by simp)
    | some d1 =>
      rw [h1] at h
      simp only at h ⊢
      rw [ih { st with fs := d1, renamed_files := st.renamed_files ++ [p] } h]
      simp

/-- One round of the loop: the first pending rename finds its source in place
and its target free, and leaves the loop in the state for the rest. -/
theorem pending_step (id w : Str) (d : Dir) (a b : Str) (r : List (Str × Str)) (t : Int)
    (h : Remover.Pending id w d ((a, b) :: r) t) :
    ∃ s, decode a = some (w, s) ∧ t < s ∧ b = Remover.new_name id w s a ∧
      a ∈ d.names ∧ b ∉ d.names ∧ a ≠ b ∧
      Remover.Pending id w (d.map (fun e => if e.1 == a then (b, e.2) else e)) r s := by
  obtain ⟨i1, i2, i3, i4, i5, i6, i7⟩ := h
  obtain ⟨ha, s, hs, hts, hb⟩ := i3 (a, b) (List.mem_cons_self _ _)
  simp only at ha hs hb
  have ida := i1 a ha s hs
  obtain ⟨nb1, nb2, nb3, -⟩ := new_name_decode a w id s hs ida (by omega)
  rw [← hb] at nb1 nb2 nb3
  have i5h := (List.pairwise_cons.1 i5).1
  have i5t := (List.pairwise_cons.1 i5).2
  -- no file of the folder carries the number `s - 1`
  have hvac : ∀ g ∈ d.names, decode g ≠ some (w, s - 1) := by
    intro g hg hdec
    by_cases e : s - 1 = t
    · rw [e] at hdec
      exact i6 g hg hdec
    · have hmem := i4 g hg (s - 1) hdec (by omega)
      simp only [List.map_cons, List.mem_cons] at hmem
      rcases hmem with e1 | e1
      · rw [e1, hs] at hdec
        simp only [Option.some.injEq, Prod.mk.injEq] at hdec
        omega
      · obtain ⟨q, hq, hq1⟩ := List.mem_map.1 e1
        have lt1 := i5h q hq
        simp only at lt1
        rw [hq1] at lt1
        have lt2 := name_order g a w id (s - 1) s hdec hs (i1 g hg _ hdec) ida (by omega)
        rw [strLt_asymm _ _ lt1] at lt2
        exact absurd lt2 (by simp)
  have hbd : b ∉ d.names := fun hc => hvac b hc nb1
  have hab : a ≠ b := by
    intro hc
    rw [← hc, hs] at nb1
    simp only [Option.some.injEq, Prod.mk.injEq] at nb1
    omega
  -- the later sources carry larger numbers
  have hlater : ∀ q ∈ r, ∀ u, decode q.1 = some (w, u) → s < u := by
    intro q hq u hu
    obtain ⟨hqd, -⟩ := i3 q (List.mem_cons_of_mem _ hq)
    have lt1 := i5h q hq
    simp only at lt1
    have hne : q.1 ≠ a := by
      intro hc
      rw [hc, strLt_irrefl] at lt1
      exact absurd lt1 (by simp)
    have hus : u ≠ s := by
      intro hc
      rw [hc] at hu
      exact hne (i2 q.1 hqd a ha s hu hs)
    by_contra hle
    have lt2 := name_order q.1 a w id u s hu hs (i1 q.1 hqd u hu) ida (by omega)
    rw [strLt_asymm _ _ lt1] at lt2
    exact absurd lt2 (by simp)
  have hnames : ∀ n, n ∈ Dir.names (d.map (fun e => if e.1 == a then (b, e.2) else e)) ↔
      n = b ∨ (n ∈ d.names ∧ n ≠ a) := by
    intro n
    rw [names_map_rename, List.mem_map]
    constructor
    · rintro ⟨x, hx, e⟩
      by_cases hxa : x = a
      · rw [if_pos hxa] at e
        exact Or.inl e.symm
      · rw [if_neg hxa] at e
        rw [← e]
        exact Or.inr ⟨hx, hxa⟩
    · rintro (e | ⟨hn, hna⟩)
      · exact ⟨a, ha, by rw [if_pos rfl, e]⟩
      · exact ⟨n, hn, by rw [if_neg hna]⟩
  refine ⟨s, hs, hts, hb, ha, hbd, hab, ?_, ?_, ?_, ?_, i5t, ?_, by omega⟩
  · intro f hf u hu
    rcases (hnames f).1 hf with e | ⟨hfd, -⟩
    · rw [e]
      exact nb2
    · exact i1 f hfd u hu
  · intro f hf g hg u hu1 hu2
    rcases (hnames f).1 hf with e | ⟨hfd, hfa⟩
    · rcases (hnames g).1 hg with e2 | ⟨hgd, hga⟩
      · rw [e, e2]
      · rw [e, nb1] at hu1
        simp only [Option.some.injEq, Prod.mk.injEq] at hu1
        rw [← hu1.2] at hu2
        exact absurd hu2 (hvac g hgd)
    · rcases (hnames g).1 hg with e2 | ⟨hgd, hga⟩
      · rw [e2, nb1] at hu2
        simp only [Option.some.injEq, Prod.mk.injEq] at hu2
        rw [← hu2.2] at hu1
        exact absurd hu1 (hvac f hfd)
      · exact i2 f hfd g hgd u hu1 hu2
  · intro q hq
    obtain ⟨hqd, u, hu, -, hq2⟩ := i3 q (List.mem_cons_of_mem _ hq)
    have hsu := hlater q hq u hu
    have hne : q.1 ≠ a := by
      intro hc
      rw [hc, hs] at hu
      simp only [Option.some.injEq, Prod.mk.injEq] at hu
      omega
    exact ⟨(hnames q.1).2 (Or.inr ⟨hqd, hne⟩), u, hu, hsu, hq2⟩
  · intro f hf u hu hsu
    rcases (hnames f).1 hf with e | ⟨hfd, hfa⟩
    · rw [e, nb1] at hu
      simp only [Option.some.injEq, Prod.mk.injEq] at hu
      omega
    · have := i4 f hfd u hu (by omega)
      simp only [List.map_cons, List.mem_cons] at this
      rcases this with e1 | e1
      · exact absurd e1 hfa
      · exact e1
  · intro f hf hdec
    rcases (hnames f).1 hf with e | ⟨hfd, hfa⟩
    · rw [e, nb1] at hdec
      simp only [Option.some.injEq, Prod.mk.injEq] at hdec
      omega
    · exact hfa (i2 f hfd a ha s hdec hs)

theorem rename_undo (d : Dir) (a b : Str) (ha : a ∈ d.names) (hb : b ∉ d.names) (hab : a ≠ b) :
    fs_exists (d.map (fun e => if e.1 == a then (b, e.2) else e)) b = true ∧
      fs_rename (d.map (fun e => if e.1 == a then (b, e.2) else e)) b a = some d := by
  have hbn : b ∈ Dir.names (d.map (fun e => if e.1 == a then (b, e.2) else e)) := by
    rw [names_map_rename, List.mem_map]
    exact ⟨a, ha, by rw [if_pos rfl]⟩
  have han : a ∉ Dir.names (d.map (fun e => if e.1 == a then (b, e.2) else e)) := by
    rw [names_map_rename, List.mem_map]
    rintro ⟨x, -, e⟩
    by_cases hx : x = a
    · rw [if_pos hx] at e
      exact hab e.symm
    · rw [if_neg hx] at e
      exact hx e
  refine ⟨(exists_iff_mem _ _).2 hbn, ?_⟩
  rw [rename_fresh _ b a hbn (Ne.symm hab) han, List.map_map]
  congr 1
  conv => rhs; rw [← List.map_id d]
  apply List.map_congr_left
  intro e he
  obtain ⟨x, y⟩ := e
  by_cases hx : x = a
  · simp [hx]
  · have hxb : x ≠ b := fun hc => hb (by rw [← hc]; exact List.mem_map_of_mem Prod.fst he)
    simp [hx, hxb]

theorem undo_all_cons (p : Str × Str) (ps : List (Str × Str)) (d : Dir) :
    Remover.undo_all (p :: ps) d =
      (if fs_exists (Remover.undo_all ps d) p.2 then
        (fs_rename (Remover.undo_all ps d) p.2 p.1).getD (Remover.undo_all ps d)
       else Remover.undo_all ps d) := by
  simp [Remover.undo_all, List.foldl_append]

/-- Interrupted after any number of rounds, the loop is undone by walking the
applied renames backwards. -/
theorem pending_undo (id w : Str) (r : List (Str × Str)) (d : Dir) (t : Int) (n : Nat)
    (h : Remover.Pending id w d r t) :
    ∃ dn, Remover.rename_all (r.take n) d = some dn ∧ Remover.undo_all (r.take n) dn = d := by
  induction r generalizing d t n with
  | nil => exact ⟨d, by simp [Remover.rename_all], by simp [Remover.undo_all]⟩
  | cons p r ih =>
    cases n with
    | zero => exact ⟨d, by simp [Remover.rename_all], by simp [Remover.undo_all]⟩
    | succ n =>
      obtain ⟨a, b⟩ := p
      obtain ⟨s, -, -, -, ha, hb, hab, hp⟩ := pending_step id w d a b r t h
      obtain ⟨dn, h1, h2⟩ := ih _ s n hp
      obtain ⟨u1, u2⟩ := rename_undo d a b ha hb hab
      refine ⟨dn, ?_, ?_⟩
      · simp only [List.take_succ_cons, Remover.rename_all, rename_fresh d a b ha hab hb, h1]
      · rw [List.take_succ_cons, undo_all_cons, h2]
        simp only [u1, u2, if_true, Option.getD_some]

theorem shifted_of_le (id w : Str) (t : Int) (n : Str)
    (h : ∀ s, decode n = some (w, s) → s ≤ t) : Remover.shifted id w t n = n := by
  unfold Remover.shifted
  cases hd : decode n with
  | none => rfl
  | some p =>
    obtain ⟨type, stt⟩ := p
    simp only
    by_cases hw : type = w
    · rw [hw] at hd
      have := h stt hd
      rw [if_neg (by omega)]
    · rw [if_neg (fun hc => hw hc.1)]

theorem shifted_of_gt (id w : Str) (t s : Int) (n : Str) (h : decode n = some (w, s))
    (hts : t < s) : Remover.shifted id w t n = Remover.new_name id w s n := by
  unfold Remover.shifted
  rw [h]
  simp [hts]

/-- The loop run to its end moves every file of the series with a number above
`t` to its new name, in place. -/
theorem pending_rename_all (id w : Str) (r : List (Str × Str)) (d : Dir) (t : Int)
    (h : Remover.Pending id w d r t) :
    Remover.rename_all r d = some (d.map (fun e => (Remover.shifted id w t e.1, e.2))) := by
  induction r generalizing d t with
  | nil =>
    simp only [Remover.rename_all, Option.some.injEq]
    conv => lhs; rw [← List.map_id d]
    apply List.map_congr_left
    intro e he
    have hmem : e.1 ∈ d.names := List.mem_map_of_mem Prod.fst he
    have : Remover.shifted id w t e.1 = e.1 := by
      apply shifted_of_le
      intro s hs
      by_contra hc
      have := h.2.2.2.1 e.1 hmem s hs (by omega)
      simp at this
    rw [this]
    rfl
  | cons p r ih =>
    obtain ⟨a, b⟩ := p
    obtain ⟨s, hs, hts, hb, ha, hbd, hab, hp⟩ := pending_step id w d a b r t h
    obtain ⟨i1, i2, i3, i4, i5, i6, i7⟩ := h
    simp only [Remover.rename_all, rename_fresh d a b ha hab hbd, ih _ s hp, List.map_map,
      Option.some.injEq]
    apply List.map_congr_left
    intro e he
    have hmem : e.1 ∈ d.names := List.mem_map_of_mem Prod.fst he
    obtain ⟨x, y⟩ := e
    simp only [Function.comp]
    simp only at hmem
    by_cases hx : x = a
    · subst hx
      have hdb : decode b = some (w, s - 1) := by
        rw [hb]
        exact (new_name_decode x w id s hs (i1 x ha s hs) (by omega)).1
      have e1 : Remover.shifted id w s b = b :=
        shifted_of_le id w s b (fun u hu => by
          rw [hdb] at hu
          simp only [Option.some.injEq, Prod.mk.injEq] at hu
          omega)
      have e2 : Remover.shifted id w t x = b := by
        rw [shifted_of_gt id w t s x hs hts, hb]
      simp [e1, e2]
    · have hxa : (x == a) = false := by simp [hx]
      simp only [hxa, Bool.false_eq_true, if_false]
      congr 1
      cases hd : decode x with
      | none =>
        rw [shifted_of_le id w s x (fun u hu => by rw [hd] at hu; exact absurd hu (by simp)),
          shifted_of_le id w t x (fun u hu => by rw [hd] at hu; exact absurd hu (by simp))]
      | some q =>
        obtain ⟨type, u⟩ := q
        by_cases hw : type = w
        · rw [hw] at hd
          by_cases hu : t < u
          · have hmem2 := i4 x hmem u hd hu
            simp only [List.map_cons, List.mem_cons] at hmem2
            have hsu : s < u := by
              rcases hmem2 with e1 | e1
              · exact absurd e1 hx
              · obtain ⟨q, hq, hq1⟩ := List.mem_map.1 e1
                obtain ⟨-, u2, hu2, hsu2, -⟩ := hp.2.2.1 q hq
                rw [hq1, hd] at hu2
                simp only [Option.some.injEq, Prod.mk.injEq] at hu2
                omega
            rw [shifted_of_gt id w s u x hd hsu, shifted_of_gt id w t u x hd hu]
          · rw [shifted_of_le id w s x (fun v hv => by
                rw [hd] at hv
                simp only [Option.some.injEq, Prod.mk.injEq] at hv
                omega),
              shifted_of_le id w t x (fun v hv => by
                rw [hd] at hv
                simp only [Option.some.injEq, Prod.mk.injEq] at hv
                omega)]
        · rw [shifted_of_le id w s x (fun v hv => by
              rw [hd] at hv
              simp only [Option.some.injEq, Prod.mk.injEq] at hv
              exact absurd hv.1 hw),
            shifted_of_le id w t x (fun v hv => by
              rw [hd] at hv
              simp only [Option.some.injEq, Prod.mk.injEq] at hv
              exact absurd hv.1 hw)]

/-! ## The planned renames -/

theorem filterMap_nodup_inj {α β : Type} (φ : α → Option β) (l : List α)
    (h : (l.filterMap φ).Nodup) :
    ∀ x ∈ l, ∀ y ∈ l, ∀ v, φ x = some v → φ y = some v → x = y := by
  induction l with
  | nil =>
    intro x hx
    simp at hx
  | cons a l ih =>
    have hsub : (l.filterMap φ).Nodup := by
      apply List.Nodup.sublist _ h
      exact List.Sublist.filterMap φ (List.sublist_cons_self a l)
    intro x hx y hy v hxv hyv
    rcases List.mem_cons.1 hx with ex | hx1
    · rcases List.mem_cons.1 hy with ey | hy1
      · rw [ex, ey]
      · exfalso
        rw [ex] at hxv
        rw [List.filterMap_cons_some hxv, List.nodup_cons] at h
        exact h.1 (List.mem_filterMap.2 ⟨y, hy1, hyv⟩)
    · rcases List.mem_cons.1 hy with ey | hy1
      · exfalso
        rw [ey] at hyv
        rw [List.filterMap_cons_some hyv, List.nodup_cons] at h
        exact h.1 (List.mem_filterMap.2 ⟨x, hx1, hxv⟩)
      · exact ih hsub x hx1 y hy1 v hxv hyv

theorem filterMap_nodup_fst {α β γ : Type} (φ : α → Option β) (ψ : α → Option (α × γ))
    (l : List α) (h : (l.filterMap φ).Nodup)
    (hψ : ∀ x p, ψ x = some p → p.1 = x ∧ ∃ v, φ x = some v) :
    ((l.filterMap ψ).map Prod.fst).Nodup := by
  induction l with
  | nil => simp
  | cons a l ih =>
    have hsub : (l.filterMap φ).Nodup := by
      apply List.Nodup.sublist _ h
      exact List.Sublist.filterMap φ (List.sublist_cons_self a l)
    cases hp : ψ a with
    | none =>
      rw [List.filterMap_cons_none hp]
      exact ih hsub
    | some p =>
      obtain ⟨hp1, v, hv⟩ := hψ a p hp
      rw [List.filterMap_cons_some hp, List.map_cons, List.nodup_cons]
      refine ⟨?_, ih hsub⟩
      intro hc
      obtain ⟨q, hq, hq1⟩ := List.mem_map.1 hc
      obtain ⟨x, hx, hxq⟩ := List.mem_filterMap.1 hq
      obtain ⟨hq2, -⟩ := hψ x q hxq
      have hxa : x = a := by rw [← hq2, hq1, hp1]
      rw [List.filterMap_cons_some hv, List.nodup_cons] at h
      exact h.1 (List.mem_filterMap.2 ⟨x, hx, by rw [hxa]; exact hv⟩)

theorem names_remove_eq (d : Dir) (n : Str) :
    (fs_remove d n).names = d.names.filter (fun m => m != n) := by
  unfold fs_remove Dir.names
  rw [List.filter_map]
  rfl

theorem seqs_remove_nodup (w : Str) (d : Dir) (n : Str) (h : (seqs w d).Nodup) :
    (seqs w (fs_remove d n)).Nodup := by
  unfold seqs at h ⊢
  rw [names_remove_eq]
  exact List.Nodup.sublist (List.Sublist.filterMap _ (List.filter_sublist _)) h

theorem collect_entry_eq_some (id w : Str) (k : Int) (f : Str) (p : Str × Str) :
    Remover.collect_entry id w k f = some p ↔
      ∃ s, decode f = some (w, s) ∧ k < s ∧ p = (f, Remover.new_name id w s f) := by
  unfold Remover.collect_entry
  cases hd : decode f with
  | none => simp
  | some q =>
    obtain ⟨t, v⟩ := q
    by_cases ht : t = w
    · by_cases hv : k < v
      · simp [ht, hv, eq_comm]
      · simp [ht, hv]
    · simp [ht]

theorem mem_collect (d : Dir) (id w : Str) (k : Int) (p : Str × Str) :
    p ∈ Remover.collect d id w k ↔
      p.1 ∈ d.names ∧ ∃ s, decode p.1 = some (w, s) ∧ k < s ∧ p.2 = Remover.new_name id w s p.1 := by
  unfold Remover.collect
  rw [List.mem_filterMap]
  constructor
  · rintro ⟨f, hf, h⟩
    obtain ⟨s, hs, hks, hp⟩ := (collect_entry_eq_some id w k f p).1 h
    rw [hp]
    exact ⟨hf, s, hs, hks, rfl⟩
  · rintro ⟨hf, s, hs, hks, hp⟩
    refine ⟨p.1, hf, (collect_entry_eq_some id w k p.1 p).2 ⟨s, hs, hks, ?_⟩⟩
    rw [← hp]

theorem nameLe_total (a b : Str × Str) : Remover.nameLe a b ∨ Remover.nameLe b a := by
  unfold Remover.nameLe
  cases h : strLt b.1 a.1 with
  | false => exact Or.inl rfl
  | true => exact Or.inr (strLt_asymm _ _ h)

theorem nameLe_trans (a b c : Str × Str) (h1 : Remover.nameLe a b) (h2 : Remover.nameLe b c) :
    Remover.nameLe a c :=
  strLe_trans a.1 b.1 c.1 h1 h2

theorem sort_renames_perm (l : List (Str × Str)) : (Remover.sort_renames l).Perm l :=
  List.perm_insertionSort _ l

theorem sort_renames_sorted (l : List (Str × Str)) :
    (Remover.sort_renames l).Pairwise Remover.nameLe :=
  @List.sorted_insertionSort _ Remover.nameLe _ ⟨nameLe_total⟩ ⟨nameLe_trans⟩ l

/-- The state of the loop when it starts: the target is deleted and the renames
are collected and sorted. -/
theorem pending_begin (id w : Str) (d : Dir) (target : Str) (k : Int)
    (hex : target ∈ d.names) (hdec : decode target = some (w, k))
    (hid : ∀ f ∈ d.names, ∀ s, decode f = some (w, s) → (f.drop 2).take 2 = id)
    (hnd : (seqs w d).Nodup) :
    Remover.Pending id w (fs_remove d target)
      (Remover.sort_renames (Remover.collect (fs_remove d target) id w k)) k := by
  have huniq : ∀ f ∈ d.names, ∀ g ∈ d.names, ∀ s, decode f = some (w, s) →
      decode g = some (w, s) → f = g := by
    intro f hf g hg s h1 h2
    exact filterMap_nodup_inj (seq_of w) d.names hnd f hf g hg s
      ((seq_of_eq_some w f s).2 h1) ((seq_of_eq_some w g s).2 h2)
  have hsubn : ∀ f, f ∈ (fs_remove d target).names → f ∈ d.names ∧ f ≠ target :=
    fun f hf => (names_remove d target f).1 hf
  have hperm := sort_renames_perm (Remover.collect (fs_remove d target) id w k)
  refine ⟨?_, ?_, ?_, ?_, ?_, ?_, ?_⟩
  · intro f hf s hs
    exact hid f (hsubn f hf).1 s hs
  · intro f hf g hg s h1 h2
    exact huniq f (hsubn f hf).1 g (hsubn g hg).1 s h1 h2
  · intro p hp
    exact (mem_collect _ id w k p).1 (hperm.mem_iff.1 hp)
  · intro f hf s hs hks
    have : (f, Remover.new_name id w s f) ∈ Remover.collect (fs_remove d target) id w k :=
      (mem_collect _ id w k _).2 ⟨hf, s, hs, hks, rfl⟩
    exact List.mem_map.2 ⟨_, hperm.mem_iff.2 this, rfl⟩
  · have hsorted := sort_renames_sorted (Remover.collect (fs_remove d target) id w k)
    have hnodup : ((Remover.sort_renames
        (Remover.collect (fs_remove d target) id w k)).map Prod.fst).Nodup := by
      rw [(hperm.map Prod.fst).nodup_iff]
      apply filterMap_nodup_fst (seq_of w) (Remover.collect_entry id w k) _
        (seqs_remove_nodup w d target hnd)
      intro x p hp
      obtain ⟨s, hs, -, hpe⟩ := (collect_entry_eq_some id w k x p).1 hp
      rw [hpe]
      exact ⟨rfl, s, (seq_of_eq_some w x s).2 hs⟩
    have hne : (Remover.sort_renames (Remover.collect (fs_remove d target) id w k)).Pairwise
        (fun p q => p.1 ≠ q.1) := by
      unfold List.Nodup at hnodup
      rw [List.pairwise_map] at hnodup
      exact hnodup
    apply (hsorted.and hne).imp
    intro p q hpq
    obtain ⟨h1, h2⟩ := hpq
    rcases strLt_total p.1 q.1 h2 with e | e
    · exact e
    · unfold Remover.nameLe at h1
      rw [h1] at e
      exact absurd e (by simp)
  · intro f hf hc
    obtain ⟨h1, h2⟩ := hsubn f hf
    exact h2 (huniq f h1 target hex k hc hdec)
  · exact (decode_parts target w k hdec).2.2.2.1

/-! ## The remover from start to end -/

theorem decode_inv (f w : Str) (k : Int) (h : decode f = some (w, k)) :
    ∃ g2 rest, match_name f = some (w :: g2 :: rest) ∧ stoi (g2.drop 2) = some k := by
  unfold decode at h
  split at h
  · rename_i g1 g2 rest hm
    split at h
    · rename_i stt hst
      simp only [Option.some.injEq, Prod.mk.injEq] at h
      refine ⟨g2, rest, ?_, ?_⟩
      · rw [hm, h.1]
      · rw [hst, h.2]
    · exact absurd h (by simp)
  · exact absurd h (by simp)

theorem begin_eq (idnum : Int) (input : Str) (d : Dir) (old : Cache) (w : Str) (k : Int)
    (hload : load_cache (fs_read d cacheName) = some old) (hex : trim input ∈ d.names)
    (hdec : decode (trim input) = some (w, k)) :
    Remover.begin idnum input d = Remover.Begin.job
      { st := { fs := fs_remove d (trim input), renamed_files := [],
                deleted_file := some (trim input), cache_file := some cacheName,
                old_cache := old },
        cache := old, wsns := w,
        renames := Remover.sort_renames
          (Remover.collect (fs_remove d (trim input)) (pad_num idnum 2) w k) } := by
  obtain ⟨g2, rest, hm, hst⟩ := decode_inv _ w k hdec
  have he : fs_exists d (trim input) = true := (exists_iff_mem d _).2 hex
  unfold Remover.begin
  simp only [hload, he, hm, hst, Bool.not_true, Bool.false_eq_true, if_false]

theorem nodup_range_int (N : Nat) : ((List.range' 1 N).map Int.ofNat).Nodup := by
  apply List.Nodup.map_on _ (List.nodup_range' 1 N)
  intro a _ b _ h
  exact Int.ofNat.inj h

theorem map_rename_back (d : Dir) (a b : Str) (hb : b ∉ d.names) :
    (d.map (fun e => if e.1 == a then (b, e.2) else e)).map
      (fun e => if e.1 == b then (a, e.2) else e) = d := by
  rw [List.map_map]
  conv => rhs; rw [← List.map_id d]
  apply List.map_congr_left
  intro e he
  obtain ⟨x, y⟩ := e
  by_cases hx : x = a
  · simp [hx]
  · have hxb : x ≠ b := fun hc => hb (by rw [← hc]; exact List.mem_map_of_mem Prod.fst he)
    simp [hx, hxb]

theorem write_of_exists (d : Dir) (n c : Str) (h : fs_exists d n = true) :
    fs_write d n c = d.map (fun e => if e.1 == n then (n, c) else e) := by
  unfold fs_write
  rw [if_pos h]

theorem write_of_not_exists (d : Dir) (n c : Str) (h : ¬ fs_exists d n = true) :
    fs_write d n c = d ++ [(n, c)] := by
  unfold fs_write
  rw [if_neg h]

theorem write_write (d : Dir) (c t1 t : Str) :
    fs_write (fs_write d c t1) c t = fs_write d c t := by
  have hex : fs_exists (fs_write d c t1) c = true := by
    rw [exists_iff_mem, names_write]
    exact Or.inl rfl
  rw [write_of_exists _ c t hex]
  by_cases h : fs_exists d c = true
  · rw [write_of_exists d c t1 h, write_of_exists d c t h, List.map_map]
    apply List.map_congr_left
    intro e _
    by_cases he : e.1 = c
    · simp [he]
    · simp [he]
  · rw [write_of_not_exists d c t1 h, write_of_not_exists d c t h, List.map_append]
    have hn : c ∉ d.names := (exists_eq_false d c).1 (by simpa using h)
    congr 1
    · conv => rhs; rw [← List.map_id d]
      apply List.map_congr_left
      intro e he
      have : e.1 ≠ c := fun hc => hn (by rw [← hc]; exact List.mem_map_of_mem Prod.fst he)
      simp [this]
    · simp

theorem rename_undo_write (d : Dir) (a b c txt : Str) (ha : a ∈ d.names) (hb : b ∉ d.names)
    (hab : a ≠ b) (hac : a ≠ c) (hbc : b ≠ c) :
    fs_exists (fs_write (d.map (fun e => if e.1 == a then (b, e.2) else e)) c txt) b = true ∧
      fs_rename (fs_write (d.map (fun e => if e.1 == a then (b, e.2) else e)) c txt) b a =
        some (fs_write d c txt) := by
  have hbn : b ∈ Dir.names (d.map (fun e => if e.1 == a then (b, e.2) else e)) := by
    rw [names_map_rename, List.mem_map]
    exact ⟨a, ha, by rw [if_pos rfl]⟩
  have han : a ∉ Dir.names (d.map (fun e => if e.1 == a then (b, e.2) else e)) := by
    rw [names_map_rename, List.mem_map]
    rintro ⟨x, -, e⟩
    by_cases hx : x = a
    · rw [if_pos hx] at e
      exact hab e.symm
    · rw [if_neg hx] at e
      exact hx e
  have hbX : b ∈ (fs_write (d.map (fun e => if e.1 == a then (b, e.2) else e)) c txt).names := by
    rw [names_write]
    exact Or.inr hbn
  have haX : a ∉ (fs_write (d.map (fun e => if e.1 == a then (b, e.2) else e)) c txt).names := by
    rw [names_write]
    rintro (h | h)
    · exact hac h
    · exact han h
  have hcc : fs_exists (d.map (fun e => if e.1 == a then (b, e.2) else e)) c = fs_exists d c := by
    have h1 : c ∈ Dir.names (d.map (fun e => if e.1 == a then (b, e.2) else e)) ↔ c ∈ d.names := by
      rw [names_map_rename, List.mem_map]
      constructor
      · rintro ⟨x, hx, e⟩
        by_cases hxa : x = a
        · rw [if_pos hxa] at e
          exact absurd e hbc
        · rw [if_neg hxa] at e
          rw [← e]
          exact hx
      · intro h
        exact ⟨c, h, by rw [if_neg (Ne.symm hac)]⟩
    cases h2 : fs_exists d c with
    | true => exact (exists_iff_mem _ _).2 (h1.2 ((exists_iff_mem _ _).1 h2))
    | false =>
      rw [exists_eq_false] at h2 ⊢
      exact fun hc => h2 (h1.1 hc)
  refine ⟨(exists_iff_mem _ _).2 hbX, ?_⟩
  rw [rename_fresh _ b a hbX (Ne.symm hab) haX]
  congr 1
  unfold fs_write
  rw [hcc]
  by_cases h : fs_exists d c = true
  · rw [if_pos h, if_pos h, List.map_map, List.map_map]
    apply List.map_congr_left
    intro e he
    obtain ⟨x, y⟩ := e
    have hxb : x ≠ b := fun hc => hb (by rw [← hc]; exact List.mem_map_of_mem Prod.fst he)
    by_cases hx : x = a
    · simp [hx, hac, hbc]
    · by_cases hxc : x = c
      · simp [hxc, Ne.symm hac, Ne.symm hbc]
      · simp [hx, hxc, hxb]
  · rw [if_neg h, if_neg h, List.map_append, map_rename_back d a b hb]
    simp [Ne.symm hbc]

theorem decoded_ne_cache (f w : Str) (s : Int) (h : decode f = some (w, s)) : f ≠ cacheName := by
  intro hc
  have hno : decode cacheName = none := by decide
  rw [hc, hno] at h
  exact absurd h (by simp)

/-- Interrupted after the counter file is saved, the loop is undone all the same:
the renames walked backwards do not touch the counter file. -/
theorem pending_undo_write (id w : Str) (r : List (Str × Str)) (d : Dir) (t : Int) (txt : Str)
    (h : Remover.Pending id w d r t) :
    ∃ dn, Remover.rename_all r d = some dn ∧
      Remover.undo_all r (fs_write dn cacheName txt) = fs_write d cacheName txt := by
  induction r generalizing d t with
  | nil => exact ⟨d, by simp [Remover.rename_all], by simp [Remover.undo_all]⟩
  | cons p r ih =>
    obtain ⟨a, b⟩ := p
    obtain ⟨s, hs, hts, hbn, ha, hb, hab, hp⟩ := pending_step id w d a b r t h
    have hdb : decode b = some (w, s - 1) := by
      rw [hbn]
      exact (new_name_decode a w id s hs (h.1 a ha s hs) (by have := h.2.2.2.2.2.2; omega)).1
    obtain ⟨dn, h1, h2⟩ := ih _ s hp
    obtain ⟨u1, u2⟩ := rename_undo_write d a b cacheName txt ha hb hab
      (decoded_ne_cache a w s hs) (decoded_ne_cache b w (s - 1) hdb)
    refine ⟨dn, ?_, ?_⟩
    · simp only [Remover.rename_all, rename_fresh d a b ha hab hb, h1]
    · rw [undo_all_cons, h2]
      simp only [u1, u2, if_true, Option.getD_some]

theorem id_of_map_fst (d : Dir) (w id : Str)
    (hid : ∀ f ∈ d.names, (decode f).map Prod.fst = some w → (f.drop 2).take 2 = id) :
    ∀ f ∈ d.names, ∀ s, decode f = some (w, s) → (f.drop 2).take 2 = id := by
  intro f hf s hs
  exact hid f hf (by rw [hs]; rfl)

theorem update_cache_eq (w : Str) (old : Cache) (st : Remover.State)
    (h : ∃ ws ns, old.at keyWS = some ws ∧ old.at keyNS = some ns) :
    ∃ ws ns c1, (old.set w (old.get w - 1)).at keyWS = some ws ∧
      (old.set w (old.get w - 1)).at keyNS = some ns ∧
      Remover.update_cache w old st =
        some ({ st with fs := fs_write st.fs cacheName (cache_text ws ns) }, c1) := by
  obtain ⟨ws, ns, a1, a2⟩ := set_keeps_keys old w (old.get w - 1) h
  refine ⟨ws, ns, old.set w (old.get w - 1), a1, a2, ?_⟩
  unfold Remover.update_cache
  simp only [save_cache_of_at _ ws ns a1 a2]

/-- The run of the remover to its end, in a folder where the files of the series
carry the creator digits of the operator and pairwise different numbers: every
file of the series above the removed number is moved to its new name, in
place, and the counter file is written from the map in which the key `w`, as
typed, is one less. -/
theorem main_done (idnum : Int) (input : Str) (d : Dir) (old : Cache) (w : Str) (k : Int)
    (hload : load_cache (fs_read d cacheName) = some old)
    (hex : trim input ∈ d.names) (hdec : decode (trim input) = some (w, k))
    (hP : Remover.Pending (pad_num idnum 2) w (fs_remove d (trim input))
      (Remover.sort_renames (Remover.collect (fs_remove d (trim input)) (pad_num idnum 2) w k))
      k) :
    ∃ ws ns, (old.set w (old.get w - 1)).at keyWS = some ws ∧
      (old.set w (old.get w - 1)).at keyNS = some ns ∧
      Remover.main idnum input d = Remover.Outcome.done
        (fs_write ((fs_remove d (trim input)).map
          (fun e => (Remover.shifted (pad_num idnum 2) w k e.1, e.2)))
          cacheName (cache_text ws ns)) := by
  obtain ⟨ws0, ns0, k1, k2, -, -⟩ := load_cache_ok _ old hload
  obtain ⟨ws, ns, c1, a1, a2, hup⟩ := update_cache_eq w old
    { fs := (fs_remove d (trim input)).map
        (fun e => (Remover.shifted (pad_num idnum 2) w k e.1, e.2)),
      renamed_files := [] ++ Remover.sort_renames
        (Remover.collect (fs_remove d (trim input)) (pad_num idnum 2) w k),
      deleted_file := some (trim input), cache_file := some cacheName, old_cache := old }
    ⟨ws0, ns0, k1, k2⟩
  refine ⟨ws, ns, a1, a2, ?_⟩
  unfold Remover.main
  rw [begin_eq idnum input d old w k hload hex hdec]
  have hra := apply_renames_eq
    (Remover.sort_renames (Remover.collect (fs_remove d (trim input)) (pad_num idnum 2) w k))
    { fs := fs_remove d (trim input), renamed_files := [], deleted_file := some (trim input),
      cache_file := some cacheName, old_cache := old } _ (pending_rename_all _ _ _ _ _ hP)
  simp only [hra, hup]
  rfl

/-- The counter file after a remove. With the series token typed in upper case
the counter of that series is one less and the other is as it was; with any
other spelling of the token, which the pattern accepts as well, the counter
file is written with both counters as they were. -/
theorem remove_counter (idnum : Int) (input : Str) (d : Dir) (old : Cache) (w : Str) (k : Int)
    (N : Nat) (hload : load_cache (fs_read d cacheName) = some old)
    (hex : trim input ∈ d.names) (hdec : decode (trim input) = some (w, k))
    (hid : ∀ f ∈ d.names, (decode f).map Prod.fst = some w →
      (f.drop 2).take 2 = pad_num idnum 2)
    (hdense : (seqs w d).Perm ((List.range' 1 N).map Int.ofNat)) :
    ∃ d1 ws ns, Remover.main idnum input d = Remover.Outcome.done d1 ∧
      fs_read d1 cacheName = some (cache_text ws ns) ∧
      (w = keyWS → ws = old.get keyWS - 1 ∧ ns = old.get keyNS) ∧
      (w = keyNS → ws = old.get keyWS ∧ ns = old.get keyNS - 1) ∧
      (w ≠ keyWS → w ≠ keyNS → ws = old.get keyWS ∧ ns = old.get keyNS) := by
  have hid1 := id_of_map_fst d w _ hid
  have hnd : (seqs w d).Nodup := hdense.nodup_iff.2 (nodup_range_int N)
  have hP := pending_begin (pad_num idnum 2) w d (trim input) k hex hdec hid1 hnd
  obtain ⟨ws, ns, a1, a2, hmain⟩ := main_done idnum input d old w k hload hex hdec hP
  obtain ⟨ws0, ns0, k1, k2, -, -⟩ := load_cache_ok _ old hload
  have g1 := get_of_at old _ _ k1
  have g2 := get_of_at old _ _ k2
  rw [at_set, k1] at a1
  rw [at_set, k2] at a2
  refine ⟨_, ws, ns, hmain, by rw [read_write, if_pos rfl], ?_, ?_, ?_⟩
  · intro hw
    rw [hw, if_pos rfl] at a1
    rw [hw, if_neg (by decide)] at a2
    simp only [Option.some.injEq] at a1 a2
    rw [← a1, ← a2, g2]
    exact ⟨rfl, rfl⟩
  · intro hw
    rw [hw, if_neg (by decide)] at a1
    rw [hw, if_pos rfl] at a2
    simp only [Option.some.injEq] at a1 a2
    rw [← a1, ← a2, g1]
    exact ⟨rfl, rfl⟩
  · intro h1 h2
    rw [if_neg (Ne.symm h1)] at a1
    rw [if_neg (Ne.symm h2)] at a2
    simp only [Option.some.injEq] at a1 a2
    rw [← a1, ← a2, g1, g2]
    exact ⟨rfl, rfl⟩

/-- A folder outside the amended claim C2: the WS files of creator 7 with
sequence 1 and 2 and a WS file with sequence 3 named with the creator digits
`06`. The renames are sorted by the old file name, so `WS060003...` is renamed
first, onto `WS070002...`, which is still in place: its content `b` is lost
and one WS file is left. -/
theorem remove_mixed_creators_overwrites :
    Remover.sort_renames (Remover.collect
        [(".cache".toList, "WS=3\nNS=0\n".toList),
         ("WS070002_C02_L3_MATH.tex".toList, "b".toList),
         ("WS060003_C02_L3_MATH.tex".toList, "c".toList)] (pad_num 7 2) keyWS 1) =
      [("WS060003_C02_L3_MATH.tex".toList, "WS070002_C02_L3_MATH.tex".toList),
       ("WS070002_C02_L3_MATH.tex".toList, "WS070001_C02_L3_MATH.tex".toList)] ∧
    Remover.main 7 "WS070001_C02_L3_MATH.tex".toList
        [(".cache".toList, "WS=3\nNS=0\n".toList),
         ("WS070001_C02_L3_MATH.tex".toList, "a".toList),
         ("WS070002_C02_L3_MATH.tex".toList, "b".toList),
         ("WS060003_C02_L3_MATH.tex".toList, "c".toList)] =
      Remover.Outcome.done
        [(".cache".toList, "WS=2\nNS=0\n".toList),
         ("WS070001_C02_L3_MATH.tex".toList, "c".toList)] := by
  decide

theorem cleanup_eq (st : Remover.State) (old : Cache) (ws ns : Int)
    (hc : st.cache_file = some cacheName) (ho : st.old_cache = old)
    (h1 : old.at keyWS = some ws) (h2 : old.at keyNS = some ns) :
    Remover.cleanup_on_signal st =
      fs_write (Remover.undo_all st.renamed_files st.fs) cacheName (cache_text ws ns) := by
  have hne : old.isEmpty = false := by
    cases old with
    | nil => simp [Cache.at] at h1
    | cons e l => rfl
  unfold Remover.cleanup_on_signal
  simp only [hc, ho, hne, get_of_at old _ ws h1, get_of_at old _ ns h2]
  rfl

/-- The handler at the points where every applied rename is recorded. In a
folder where the files of one series carry the creator digits of the operator
and the sequence numbers `1..N`, once each, a signal after the target is deleted
and `n` of the planned renames are applied and recorded (any `n`), or after the
counter file is saved and before the tracking lists are cleared, makes the
handler rename the recorded files back from the last to the first and write the
counter file: the folder left is the folder before the run without the deleted
file, entry by entry, with the counter file written from the counters loaded at
the start. The points `Remover.Point.renamed n`, between `fs::rename` and
`renamed_files.push_back`, are not covered. -/
theorem handler_restores_recorded (idnum : Int) (input : Str) (d : Dir) (old : Cache) (w : Str)
    (k : Int) (N n : Nat) (hload : load_cache (fs_read d cacheName) = some old)
    (hex : trim input ∈ d.names) (hdec : decode (trim input) = some (w, k))
    (hid : ∀ f ∈ d.names, (decode f).map Prod.fst = some w →
      (f.drop 2).take 2 = pad_num idnum 2)
    (hdense : (seqs w d).Perm ((List.range' 1 N).map Int.ofNat)) :
    ∃ ws ns, old.at keyWS = some ws ∧ old.at keyNS = some ns ∧
      Remover.interrupted idnum input d (Remover.Point.recorded n) =
        some (fs_write (fs_remove d (trim input)) cacheName (cache_text ws ns)) ∧
      Remover.interrupted idnum input d Remover.Point.saved =
        some (fs_write (fs_remove d (trim input)) cacheName (cache_text ws ns)) ∧
      (∀ m, fs_read (fs_write (fs_remove d (trim input)) cacheName (cache_text ws ns)) m =
        if m = cacheName then some (cache_text ws ns)
        else if m = trim input then none else fs_read d m) ∧
      ∃ m1, load_cache (some (cache_text ws ns)) = some m1 ∧
        m1.at keyWS = some ws ∧ m1.at keyNS = some ns := by
  have hid1 := id_of_map_fst d w _ hid
  have hnd : (seqs w d).Nodup := hdense.nodup_iff.2 (nodup_range_int N)
  have hP := pending_begin (pad_num idnum 2) w d (trim input) k hex hdec hid1 hnd
  obtain ⟨ws, ns, k1, k2, r1, r2⟩ := load_cache_ok _ old hload
  refine ⟨ws, ns, k1, k2, ?_, ?_, ?_, ?_⟩
  · obtain ⟨dn, hr, hu⟩ := pending_undo _ w _ _ k n hP
    unfold Remover.interrupted
    rw [begin_eq idnum input d old w k hload hex hdec]
    have hra := apply_renames_eq
      ((Remover.sort_renames
        (Remover.collect (fs_remove d (trim input)) (pad_num idnum 2) w k)).take n)
      { fs := fs_remove d (trim input), renamed_files := [], deleted_file := some (trim input),
        cache_file := some cacheName, old_cache := old } dn hr
    simp only [Remover.at_point, hra, Option.map_some', Option.some.injEq]
    rw [cleanup_eq _ old ws ns rfl rfl k1 k2]
    simp only [List.nil_append, hu]
  · obtain ⟨dn, hr, -⟩ := pending_undo_write _ w _ _ k [] hP
    obtain ⟨ws1, ns1, c1, -, -, hup⟩ := update_cache_eq w old
      { fs := dn,
        renamed_files := [] ++ Remover.sort_renames
          (Remover.collect (fs_remove d (trim input)) (pad_num idnum 2) w k),
        deleted_file := some (trim input), cache_file := some cacheName, old_cache := old }
      ⟨ws, ns, k1, k2⟩
    obtain ⟨dn2, hr2, hu2⟩ := pending_undo_write _ w _ _ k (cache_text ws1 ns1) hP
    rw [hr] at hr2
    simp only [Option.some.injEq] at hr2
    rw [← hr2] at hu2
    unfold Remover.interrupted
    rw [begin_eq idnum input d old w k hload hex hdec]
    have hra := apply_renames_eq
      (Remover.sort_renames (Remover.collect (fs_remove d (trim input)) (pad_num idnum 2) w k))
      { fs := fs_remove d (trim input), renamed_files := [], deleted_file := some (trim input),
        cache_file := some cacheName, old_cache := old } dn hr
    simp only [Remover.at_point, hra, hup, Option.map_some', Option.some.injEq]
    rw [cleanup_eq _ old ws ns rfl rfl k1 k2]
    simp only [List.nil_append, hu2, write_write]
  · intro m
    rw [read_write, read_remove]
  · have a1 : ((init_cache.set keyWS ws).set keyNS ns).at keyWS = some ws := by
      rw [at_set, if_neg (by decide), at_set, if_pos rfl]
    have a2 : ((init_cache.set keyWS ws).set keyNS ns).at keyNS = some ns := by
      rw [at_set, if_pos rfl]
    exact ⟨_, load_cache_text ws ns r1 r2, a1, a2⟩

/-- Claim C6, the failing input. The folder holds the WS files of creator 7 with
sequence 1, 2 and 3 and the counter file `WS=3`; the first file is removed. A
signal inside the renaming loop, after `fs::rename` has moved a file and before
`renamed_files.push_back` has recorded it, finds an applied rename the handler
does not know of:
* with the first rename applied and not recorded the handler renames nothing
  back, and the file that had sequence 2 stays under `WS070001...`;
* with the first rename recorded and the second applied and not recorded the
  handler renames `WS070001...` back onto `WS070002...`, where the former third
  file now is: its content `c` is lost.
At the points where every applied rename is recorded, and after the counter
file is saved, the handler leaves the folder as it was without the deleted
file. -/
theorem interrupted_before_record_not_restored :
    Remover.interrupted 7 "WS070001_C02_L3_MATH.tex".toList
        [(".cache".toList, "WS=3\nNS=0\n".toList),
         ("WS070001_C02_L3_MATH.tex".toList, "a".toList),
         ("WS070002_C02_L3_MATH.tex".toList, "b".toList),
         ("WS070003_C02_L3_MATH.tex".toList, "c".toList)] (Remover.Point.renamed 0) =
      some [(".cache".toList, "WS=3\nNS=0\n".toList),
         ("WS070001_C02_L3_MATH.tex".toList, "b".toList),
         ("WS070003_C02_L3_MATH.tex".toList, "c".toList)] ∧
    Remover.interrupted 7 "WS070001_C02_L3_MATH.tex".toList
        [(".cache".toList, "WS=3\nNS=0\n".toList),
         ("WS070001_C02_L3_MATH.tex".toList, "a".toList),
         ("WS070002_C02_L3_MATH.tex".toList, "b".toList),
         ("WS070003_C02_L3_MATH.tex".toList, "c".toList)] (Remover.Point.renamed 1) =
      some [(".cache".toList, "WS=3\nNS=0\n".toList),
         ("WS070002_C02_L3_MATH.tex".toList, "b".toList)] ∧
    (∀ pt ∈ [Remover.Point.recorded 0, Remover.Point.recorded 1, Remover.Point.recorded 2,
        Remover.Point.saved],
      Remover.interrupted 7 "WS070001_C02_L3_MATH.tex".toList
        [(".cache".toList, "WS=3\nNS=0\n".toList),
         ("WS070001_C02_L3_MATH.tex".toList, "a".toList),
         ("WS070002_C02_L3_MATH.tex".toList, "b".toList),
         ("WS070003_C02_L3_MATH.tex".toList, "c".toList)] pt =
      some [(".cache".toList, "WS=3\nNS=0\n".toList),
         ("WS070002_C02_L3_MATH.tex".toList, "b".toList),
         ("WS070003_C02_L3_MATH.tex".toList, "c".toList)]) := by
  decide

end AI4Math
